import Mathlib

/-!
# A shallow embedding of the lazy-watch change-tracking engine

This file models the core of the `lazy-watch` repository:

* `src/diff-tracker.js` (the `DiffTracker` class),
* `src/event-emitter.js` (the `EventEmitter` class with throttle, debounce,
  pause/resume, forceEmit and path-scoped listeners),
* `src/proxy-handler.js` (the `ProxyHandler` class: the proxy `set` and
  `deleteProperty` traps, `#recordChange`, `#handleArrayLengthChange`,
  `overwrite` and `patch`),
* `src/lazy-watch.js` (the `LazyWatch` lifecycle wrapper: `on`, `off`,
  `pause`, `resume`, `isPaused`, `overwrite`, `patch`, `getPendingDiff`,
  `silent`, `dispose`).

Modelling conventions (JavaScript values in Lean):

* A JS value is a `JVal`: `null`, booleans, numbers (as `Int`; the engine
  performs no fractional arithmetic), strings, objects and arrays.
* JS objects are association lists whose keys are kept strictly sorted (hence
  duplicate-free).  Property-insertion order is observationally irrelevant to
  the engine except that `for...in` visits array-index keys before the
  `length` key; lexicographic string order also places digit-initial keys
  before `"length"`, and the merge engine's per-key steps at distinct keys
  commute on every value kind it is applied to, so the sorted representation
  is observationally equivalent for everything modelled here.
* Array holes (created by `delete target[i]` and by growing `length`) are
  stored `null` elements; JSON-level structural equality in JS renders holes
  as `null` as well.
* `undefined` is absence: reading a missing key yields `Option.none`.
* Reference (`===`/`!==`) comparison where at least one side is a container
  is modelled as always unequal, matching the use sites: a freshly supplied
  literal is never reference-identical to a stored container.
* `Utils.deepClone` is the identity on pure values.
* Timer primitives (`setImmediate`/`setTimeout`) are flags in the scheduler
  state: a pending immediate is a `Bool`, a pending timeout records the delay
  it was armed with; `performance.now()` is an explicit `now` argument.
* Listener callbacks are modelled as a list of wrapper mutations (their
  "reaction"), applied to the state when the listener is invoked; this is
  what reentrancy claims quantify over.
-/

/-- A JavaScript value, as used by the engine. -/
inductive JVal : Type where
  | null : JVal
  | bool : Bool → JVal
  | num : Int → JVal
  | str : String → JVal
  | obj : List (String × JVal) → JVal
  | arr : List JVal → JVal
  deriving Repr

/-- The fields of a JS object. -/
abbrev JFields := List (String × JVal)

namespace JVal

/-- `Utils.isObjectOrArray`: is the value a container (object or array)? -/
def isObjectOrArray : JVal → Bool
  | .obj _ => true
  | .arr _ => true
  | _ => false

/-- `Array.isArray`. -/
def isArr : JVal → Bool
  | .arr _ => true
  | _ => false

/-- Is the value the JS `null` literal (the diff tombstone)? -/
def isNullB : JVal → Bool
  | .null => true
  | _ => false

/-- JS truthiness, as consulted by `DiffTracker.getDiffObject`. -/
def jsTruthy : JVal → Bool
  | .null => false
  | .bool b => b
  | .num n => n != 0
  | .str s => s != ""
  | .obj _ => true
  | .arr _ => true

end JVal

/-- Strict equality `===` restricted to primitives; both sides containers is
never consulted by the engine on equal references (see module header). -/
def scalarEq : JVal → JVal → Bool
  | .null, .null => true
  | .bool a, .bool b => a == b
  | .num a, .num b => a == b
  | .str a, .str b => a == b
  | _, _ => false

/-- The JS `currentValue !== value` test: `none` is `undefined`, containers
compare by reference and are modelled as always distinct. -/
def jsNeqOpt : Option JVal → JVal → Bool
  | none, _ => true
  | some c, v =>
    if c.isObjectOrArray || v.isObjectOrArray then true else !(scalarEq c v)

/-- Character order by code point (kernel-computable). -/
def charLtB (a b : Char) : Bool := a.toNat < b.toNat

/-- Lexicographic order on key characters (kernel-computable). -/
def keyLtB : List Char → List Char → Bool
  | [], [] => false
  | [], _ :: _ => true
  | _ :: _, [] => false
  | a :: as, b :: bs =>
    if charLtB a b then true
    else if charLtB b a then false
    else keyLtB as bs

/-- The strict key order used to keep object fields sorted. -/
def keyLt (a b : String) : Bool := keyLtB a.data b.data

/-- First-match lookup in an object's field list (JS property read). -/
def olookup : JFields → String → Option JVal
  | [], _ => none
  | (k', v') :: rest, k => if k = k' then some v' else olookup rest k

/-- Property write on an object: keys are kept strictly sorted, so the write
either replaces the value at an existing key or inserts the key at its
ordered position. -/
def oset : JFields → String → JVal → JFields
  | [], k, v => [(k, v)]
  | (k', v') :: rest, k, v =>
    if keyLt k k' then (k, v) :: (k', v') :: rest
    else if k = k' then (k, v) :: rest
    else (k', v') :: oset rest k v

/-- Property deletion on an object. -/
def odelete : JFields → String → JFields
  | [], _ => []
  | (k', v') :: rest, k =>
    if k' = k then odelete rest k else (k', v') :: odelete rest k

/-- The numeric value of a digit character, if it is one. -/
def digitVal (c : Char) : Option Nat :=
  if 48 ≤ c.toNat && c.toNat ≤ 57 then some (c.toNat - 48) else none

/-- Accumulate a decimal digit string. -/
def digitsToNat : List Char → Nat → Option Nat
  | [], acc => some acc
  | c :: rest, acc =>
    match digitVal c with
    | some d => digitsToNat rest (acc * 10 + d)
    | none => none

/-- A canonical JS array-index key: the decimal rendering of a natural
number (no sign, no leading zero), which is what the engine's index tests
accept on the keys it produces. -/
def parseIdx (s : String) : Option Nat :=
  match s.data with
  | [] => none
  | [c] => digitVal c
  | c :: rest =>
    if 49 ≤ c.toNat && c.toNat ≤ 57 then digitsToNat (c :: rest) 0 else none

/-- Write an array element at index `i`, padding with holes (modelled as
`null`) when `i` is beyond the current length, as JS does. -/
def setIdx : List JVal → Nat → JVal → List JVal
  | [], 0, v => [v]
  | [], i + 1, v => JVal.null :: setIdx [] i v
  | _ :: rest, 0, v => v :: rest
  | e :: rest, i + 1, v => e :: setIdx rest i v

/-- Apply a new array `length`: truncate, or grow with holes (`null`). -/
def setLen (es : List JVal) (n : Nat) : List JVal :=
  if n ≤ es.length then es.take n
  else es ++ List.replicate (n - es.length) JVal.null

/-- JS property read `t[k]` on a container (`undefined` is `none`). -/
def jsGet : JVal → String → Option JVal
  | .obj fs, k => olookup fs k
  | .arr es, k =>
    if k = "length" then some (.num es.length)
    else
      match parseIdx k with
      | some i => es.get? i
      | none => none
  | _, _ => none

/-- JS property write `t[k] = v` on a container.  On arrays, writing
`length` a non-negative number resizes (anything else would throw a
`RangeError` and is modelled as no change), and writing a non-index key is
outside the model (no change). -/
def jsSet (t : JVal) (k : String) (v : JVal) : JVal :=
  match t with
  | .obj fs => .obj (oset fs k v)
  | .arr es =>
    if k = "length" then
      match v with
      | .num n => if 0 ≤ n then .arr (setLen es n.toNat) else .arr es
      | _ => .arr es
    else
      match parseIdx k with
      | some i => .arr (setIdx es i v)
      | none => .arr es
  | t => t

/-- JS `delete t[k]` on a container.  Deleting an in-range array index
leaves a hole (modelled as `null`); deleting `length` would throw in strict
mode and is modelled as no change. -/
def jsDelete (t : JVal) (k : String) : JVal :=
  match t with
  | .obj fs => .obj (odelete fs k)
  | .arr es =>
    match parseIdx k with
    | some i => if i < es.length then .arr (es.set i JVal.null) else .arr es
    | none => .arr es
  | t => t

/-- The JS `k in t` test on own properties (the engine's containers are
plain objects/arrays; the prototype chain is environment detail outside the
model, and array holes are modelled as present `null` elements). -/
def keyIn : JVal → String → Bool
  | .obj fs, k => (olookup fs k).isSome
  | .arr es, k =>
    k = "length" ||
      (match parseIdx k with
       | some i => i < es.length
       | none => false)
  | _, _ => false

/-- `Object.keys(v).length`, as used by the emitter's invocation guard. -/
def jsKeysCount : JVal → Nat
  | .obj fs => fs.length
  | .arr es => es.length
  | .str s => s.length
  | _ => 0

/-! ## DiffTracker (`src/diff-tracker.js`)

`getDiffObject(path)` walks the master diff creating `{}` at falsy slots and
returns a mutable reference to the node at `path`; all mutations of that
node are modelled by `modifyDiffAt`, which performs the same walk and
applies a function at the node. -/

/-- Walk the master diff along `path` exactly as `getDiffObject` does
(replacing falsy intermediates with fresh `{}`) and apply `f` to the node at
the end of the path. -/
def modifyDiffAt : JVal → List String → (JVal → JVal) → JVal
  | d, [], f => f d
  | d, s :: rest, f =>
    if d.isObjectOrArray then
      let child :=
        match jsGet d s with
        | some c => if c.jsTruthy then c else .obj []
        | none => .obj []
      jsSet d s (modifyDiffAt child rest f)
    else d

/-- `DiffTracker.hasPendingChanges`: the master diff (always an object) has
at least one key. -/
def hasPendingChanges (d : JVal) : Bool :=
  match d with
  | .obj fs => !fs.isEmpty
  | _ => false

/-! ## The merge engine (`ProxyHandler.overwrite` / `ProxyHandler.patch`)

`overwrite(target, source, path)` reconciles `target` with `source`,
recording effective changes in the master diff at `path`; `#patchMode`
suppresses the delete-missing-keys pass.  The recursion follows the source
value.  `hc` is the local `hasChanges` flag; `sched` records whether any
level requested `scheduleEmit`. -/

/-- Result of a merge-engine invocation: new target, new master diff, this
level's `hasChanges`, and whether any level requested an emit. -/
structure OwRes where
  t : JVal
  dm : JVal
  hc : Bool
  sched : Bool

/-- The "handle nested nulls" pass of `overwrite`: before cloning a
container source value over a non-container slot, its top-level `null`
entries are deleted (on arrays, deletion leaves holes, so arrays are
unchanged under the hole-as-`null` convention). -/
def cloneStripNulls : JVal → JVal
  | .obj fs => .obj (fs.filter (fun kv => !kv.2.isNullB))
  | v => v

/-- `rawSource[prop] === null || rawSource[prop] === undefined`. -/
def sourceMissing (s : JVal) (k : String) : Bool :=
  match jsGet s k with
  | none => true
  | some .null => true
  | some _ => false

/-- Record `getDiff()[k] = v` (the merge engine's plain diff write, with no
length-advance logic). -/
def dsetKey (dv : JVal) (k : String) (v : JVal) : JVal :=
  match dv with
  | .obj fs => .obj (oset fs k v)
  | .arr es => jsSet (.arr es) k v
  | dv => dv

/-- Write into the master diff at `path`, key `k`. -/
def dsetAt (dm : JVal) (path : List String) (k : String) (v : JVal) : JVal :=
  modifyDiffAt dm path (fun dv => dsetKey dv k v)

/-- The delete-missing-keys pass of `overwrite` (skipped in patch mode and
for array targets), folded over a snapshot of the target's keys. -/
def owDelLoop (s : JVal) (path : List String) :
    List String → JVal → JVal → Bool → OwRes
  | [], t, dm, hc => ⟨t, dm, hc, false⟩
  | k :: rest, t, dm, hc =>
    if sourceMissing s k then
      owDelLoop s path rest (jsDelete t k) (dsetAt dm path k .null) true
    else
      owDelLoop s path rest t dm hc

/-- Close out one `overwrite` level: run the delete-missing-keys pass when
not in patch mode and the target is not an array, then fold this level's
`hasChanges` into the emit request. -/
def owFinish (pm : Bool) (r : OwRes) (s : JVal) (path : List String) : OwRes :=
  let r1 :=
    if !pm && !r.t.isArr then
      match r.t with
      | .obj fs => owDelLoop s path (fs.map Prod.fst) (.obj fs) r.dm r.hc
      | _ => r
    else r
  { r1 with sched := r.sched || r1.hc }

mutual

/-- `ProxyHandler.overwrite(target, source, path)` over the master diff
`dm`; `pm` is `#patchMode`.  A non-container source throws `TypeError` in
the real code and is modelled as no change. -/
def owCore (pm : Bool) (t s : JVal) (path : List String) (dm : JVal) : OwRes :=
  match s with
  | .obj fs => owFinish pm (owGoFields pm fs t path dm false false) (.obj fs) path
  | .arr es =>
    match t with
    | .arr ts =>
      if ts.length ≠ es.length then
        owFinish pm
          (owGoArr pm es 0 (.arr ts) path
            (dsetAt dm path "length" (.num es.length)) true false)
          (.arr es) path
      else
        owFinish pm (owGoArr pm es 0 (.arr ts) path dm false false) (.arr es) path
    | t => owFinish pm (owGoArr pm es 0 t path dm false false) (.arr es) path
  | _ => ⟨t, dm, false, false⟩
termination_by structural s

/-- The `for (const prop in rawSource)` loop of `overwrite`, source an
object. -/
def owGoFields (pm : Bool) (fs : JFields) (t : JVal) (path : List String)
    (dm : JVal) (hc sched : Bool) : OwRes :=
  match fs with
  | [] => ⟨t, dm, hc, sched⟩
  | (k, sv) :: rest =>
    if sv.isNullB then
      owGoFields pm rest (jsDelete t k) path dm hc sched
    else
      let cur := jsGet t k
      if ((cur.map JVal.isObjectOrArray).getD false) && sv.isObjectOrArray then
        let r := owCore pm (cur.getD .null) sv (path ++ [k]) dm
        owGoFields pm rest (jsSet t k r.t) path r.dm hc (sched || r.sched)
      else if jsNeqOpt cur sv then
        let sv2 := cloneStripNulls sv
        owGoFields pm rest (jsSet t k sv2) path (dsetAt dm path k sv2) true sched
      else
        owGoFields pm rest t path dm hc sched
termination_by structural fs

/-- The `for (const prop in rawSource)` loop of `overwrite`, source an
array (`i` is the index of the head of `es`). -/
def owGoArr (pm : Bool) (es : List JVal) (i : Nat) (t : JVal)
    (path : List String) (dm : JVal) (hc sched : Bool) : OwRes :=
  match es with
  | [] => ⟨t, dm, hc, sched⟩
  | sv :: rest =>
    let k := toString i
    if sv.isNullB then
      owGoArr pm rest (i + 1) (jsDelete t k) path dm hc sched
    else
      let cur := jsGet t k
      if ((cur.map JVal.isObjectOrArray).getD false) && sv.isObjectOrArray then
        let r := owCore pm (cur.getD .null) sv (path ++ [k]) dm
        owGoArr pm rest (i + 1) (jsSet t k r.t) path r.dm hc (sched || r.sched)
      else if jsNeqOpt cur sv then
        let sv2 := cloneStripNulls sv
        owGoArr pm rest (i + 1) (jsSet t k sv2) path (dsetAt dm path k sv2) true sched
      else
        owGoArr pm rest (i + 1) t path dm hc sched
termination_by structural es

end

/-! ## Emission scheduler (`src/event-emitter.js`) -/

/-- One wrapper mutation, as performed through the proxy: a property write
or a property deletion at a path inside the watched tree. -/
inductive Mut : Type where
  | set : List String → String → JVal → Mut
  | del : List String → String → Mut

/-- A registered listener: identity, the path of the proxy it was registered
on, and the wrapper mutations its callback performs when invoked. -/
structure Listener where
  id : Nat
  path : List String
  reaction : List Mut

/-- `EventEmitter` state.  `immediate` is a pending `setImmediate` handle,
`timer` a pending `setTimeout` with the delay it was armed with. -/
structure Emitter where
  listeners : List Listener
  immediate : Bool
  timer : Option Nat
  throttle : Nat
  debounce : Nat
  lastEmit : Nat
  paused : Bool

/-- `EventEmitter.#clearPending`. -/
def Emitter.clearPending (em : Emitter) : Emitter :=
  { em with immediate := false, timer := none }

/-- `EventEmitter.scheduleEmit`, with `now = performance.now()`. -/
def Emitter.scheduleEmit (em : Emitter) (now : Nat) : Emitter :=
  if em.paused then em
  else
    let em := em.clearPending
    if 0 < em.debounce then { em with timer := some em.debounce }
    else if 0 < em.throttle then
      if em.throttle ≤ now - em.lastEmit then { em with immediate := true }
      else { em with timer := some (em.throttle - (now - em.lastEmit)) }
    else { em with immediate := true }

/-- `EventEmitter.#filterDiffByPath`. -/
def filterDiffByPath (d : JVal) : List String → JVal
  | [] => d
  | seg :: rest =>
    if d.isObjectOrArray && keyIn d seg then
      filterDiffByPath ((jsGet d seg).getD .null) rest
    else .obj []

/-- The emitter's guard before invoking a listener:
`filteredDiff && Object.keys(filteredDiff).length > 0`. -/
def invokeCond (f : JVal) : Bool :=
  f.jsTruthy && decide (0 < jsKeysCount f)

/-- One recorded delivery: the consumed master diff, and the listeners that
were invoked with their (path-filtered) payloads. -/
structure EmissionRec where
  consumed : JVal
  delivered : List (Nat × JVal)

/-- The whole-engine state of one watched root: the underlying data tree,
the master diff, the emitter, and the log of deliveries so far. -/
structure WState where
  data : JVal
  diff : JVal
  em : Emitter
  emissions : List EmissionRec

/-- `ProxyHandler.#handleArrayLengthChange`'s pruning loop over the diff
node: drop entries whose key parses to an index `≥ n`. -/
def pruneIdxGE (dv : JVal) (n : Nat) : JVal :=
  match dv with
  | .obj fs =>
    .obj (fs.filter (fun kv =>
      match parseIdx kv.1 with
      | some i => decide (i < n)
      | none => true))
  | .arr es => .arr (es.take n ++ (es.drop n).map (fun _ => JVal.null))
  | dv => dv

/-- `typeof diff.length === 'number'`: the numeric `length` of a diff node,
when it has one. -/
def dLengthVal : JVal → Option Int
  | .obj fs =>
    match olookup fs "length" with
    | some (.num n) => some n
    | _ => none
  | .arr es => some es.length
  | _ => none

/-- `ProxyHandler.#recordChange`'s diff write at the leaf node: advance a
previously recorded numeric `length` past the written index, then store the
value. -/
def leafRecord (dv : JVal) (k : String) (v : JVal) : JVal :=
  let dv1 :=
    match parseIdx k with
    | none => dv
    | some i =>
      match dLengthVal dv with
      | some L => if L ≤ (i : Int) then dsetKey dv "length" (.num (i + 1)) else dv
      | none => dv
  dsetKey dv1 k v

/-- Read the raw container at `path` in the data tree (`none` when the path
does not resolve; the real wrapper would have thrown while navigating). -/
def readPath : JVal → List String → Option JVal
  | t, [] => some t
  | t, s :: rest =>
    match jsGet t s with
    | some c => readPath c rest
    | none => none

/-- Write back a replacement subtree at `path` in the data tree. -/
def writePath : JVal → List String → JVal → JVal
  | _, [], nv => nv
  | t, s :: rest, nv =>
    match jsGet t s with
    | some c => jsSet t s (writePath c rest nv)
    | none => t

/-- One wrapper mutation applied to the engine state: the proxy `set` and
`deleteProperty` traps of `ProxyHandler`, at the proxy whose path is `p`.
A mutation whose path does not resolve to a container is not performable
through the wrapper and leaves the state unchanged. -/
def applyMut (now : Nat) (st : WState) (m : Mut) : WState :=
  match m with
  | .set p k v =>
    match readPath st.data p with
    | some t =>
      if t.isObjectOrArray then
        let dm0 :=
          if t.isArr && v.isArr && k = "length" then
            match t, v with
            | .arr ts, .arr vs =>
              if ts.length ≠ vs.length then
                modifyDiffAt st.diff p (fun dv => pruneIdxGE dv vs.length)
              else st.diff
            | _, _ => st.diff
          else st.diff
        let cur := jsGet t k
        let curIsObj := (cur.map JVal.isObjectOrArray).getD false
        let isArrayReplacement := ((cur.map JVal.isArr).getD false) && v.isArr
        if curIsObj && v.isObjectOrArray && !isArrayReplacement then
          let r := owCore false (cur.getD .null) v (p ++ [k]) dm0
          { st with
            data := writePath st.data p (jsSet t k r.t)
            diff := r.dm
            em := if r.sched then st.em.scheduleEmit now else st.em }
        else if jsNeqOpt cur v then
          { st with
            data := writePath st.data p (jsSet t k v)
            diff := modifyDiffAt dm0 p (fun dv => leafRecord dv k v)
            em := st.em.scheduleEmit now }
        else { st with diff := dm0 }
      else st
    | none => st
  | .del p k =>
    match readPath st.data p with
    | some t =>
      if t.isObjectOrArray && keyIn t k then
        { st with
          data := writePath st.data p (jsDelete t k)
          diff := modifyDiffAt st.diff p (fun dv => dsetKey dv k .null)
          em := st.em.scheduleEmit now }
      else st
    | none => st

/-- A synchronous sequence of wrapper mutations. -/
def applyMuts (now : Nat) (st : WState) (ms : List Mut) : WState :=
  ms.foldl (applyMut now) st

/-- Fan a consumed diff out to the listeners (`#emit`'s `forEach`): each
listener whose filtered payload passes the guard is invoked, which applies
its reaction mutations to the running state.  Exceptions of one listener are
caught by the real code and do not affect the others; reactions here do not
throw. -/
def emitFan (now : Nat) (d : JVal) (ls : List Listener) (st : WState)
    (acc : List (Nat × JVal)) : WState × List (Nat × JVal) :=
  match ls with
  | [] => (st, acc)
  | l :: rest =>
    let f := filterDiffByPath d l.path
    if invokeCond f then
      emitFan now d rest (applyMuts now st l.reaction) (acc ++ [(l.id, f)])
    else
      emitFan now d rest st acc

/-- `EventEmitter.#emit`: bail out when nothing is pending, otherwise stamp
`lastEmitTime`, consume the master diff (the cut-over), and fan it out. -/
def emitStep (now : Nat) (st : WState) : WState :=
  if hasPendingChanges st.diff then
    let d := st.diff
    let st1 : WState :=
      { st with diff := .obj [], em := { st.em with lastEmit := now } }
    let r := emitFan now d st.em.listeners st1 []
    { r.1 with emissions := r.1.emissions ++ [⟨d, r.2⟩] }
  else st

/-- The event loop firing a pending immediate: the handle is consumed and
`#emit` runs. -/
def flushImmediate (now : Nat) (st : WState) : WState :=
  if st.em.immediate then
    emitStep now { st with em := { st.em with immediate := false } }
  else st

/-- `EventEmitter.forceEmit`: clear pending handles and, if there are
pending changes, deliver synchronously right now. -/
def forceEmit (now : Nat) (st : WState) : WState :=
  let st1 : WState := { st with em := st.em.clearPending }
  if hasPendingChanges st1.diff then emitStep now st1 else st1

/-- `EventEmitter.pause`. -/
def pauseOp (st : WState) : WState :=
  { st with em := { st.em.clearPending with paused := true } }

/-- `EventEmitter.resume`: leave the paused state and re-enter the normal
scheduling policy when something is pending. -/
def resumeOp (now : Nat) (st : WState) : WState :=
  let st1 : WState := { st with em := { st.em with paused := false } }
  if hasPendingChanges st1.diff then
    { st1 with em := st1.em.scheduleEmit now }
  else st1

/-- `LazyWatch.silent(watched, callback)`: force-emit, run the block (its
mutations `blockMuts`; `throws` tells whether the block then raises), and in
a `finally` consume the accumulated diff.  The consumed diff is returned
only on normal completion; on a throw the exception propagates (`none`). -/
def silentOp (now : Nat) (st : WState) (blockMuts : List Mut) (throws : Bool) :
    WState × Option JVal :=
  let st1 := forceEmit now st
  let st2 := applyMuts now st1 blockMuts
  ({ st2 with diff := .obj [] }, if throws then none else some st2.diff)

/-! ## Lifecycle manager (`src/lazy-watch.js`) -/

/-- The error message of `LazyWatch.#checkDisposed`. -/
def disposedMsg : String := "LazyWatch instance has been disposed"

/-- A `LazyWatch` instance: the engine state plus the `#disposed` flag. -/
structure LW where
  disposed : Bool
  w : WState

/-- `LazyWatch.dispose`: a no-op on an already-disposed instance, otherwise
mark disposed, dispose the emitter (clear pending handles, drop listeners)
and clear the diff tracker. -/
def lwDispose (lw : LW) : LW :=
  if lw.disposed then lw
  else
    { disposed := true,
      w := { lw.w with
              em := { lw.w.em.clearPending with listeners := [] },
              diff := .obj [] } }

/-- `LazyWatch.on`. -/
def lwOn (lw : LW) (l : Listener) : Except String LW :=
  if lw.disposed then .error disposedMsg
  else .ok { lw with
              w := { lw.w with
                      em := { lw.w.em with
                              listeners := lw.w.em.listeners ++ [l] } } }

/-- `LazyWatch.off` (removes the first listener with the given identity). -/
def lwOff (lw : LW) (i : Nat) : Except String LW :=
  if lw.disposed then .error disposedMsg
  else .ok { lw with
              w := { lw.w with
                      em := { lw.w.em with
                              listeners :=
                                lw.w.em.listeners.eraseP (fun l => l.id == i) } } }

/-- `LazyWatch.pause`. -/
def lwPause (lw : LW) : Except String LW :=
  if lw.disposed then .error disposedMsg
  else .ok { lw with w := pauseOp lw.w }

/-- `LazyWatch.resume`. -/
def lwResume (lw : LW) (now : Nat) : Except String LW :=
  if lw.disposed then .error disposedMsg
  else .ok { lw with w := resumeOp now lw.w }

/-- `LazyWatch.isPaused`. -/
def lwIsPaused (lw : LW) : Except String Bool :=
  if lw.disposed then .error disposedMsg
  else .ok lw.w.em.paused

/-- `LazyWatch.overwrite` on the watched root. -/
def lwOverwrite (lw : LW) (src : JVal) (now : Nat) : Except String LW :=
  if lw.disposed then .error disposedMsg
  else
    let r := owCore false lw.w.data src [] lw.w.diff
    .ok { lw with
          w := { lw.w with
                  data := r.t
                  diff := r.dm
                  em := if r.sched then lw.w.em.scheduleEmit now else lw.w.em } }

/-- `LazyWatch.patch` on the watched root. -/
def lwPatch (lw : LW) (src : JVal) (now : Nat) : Except String LW :=
  if lw.disposed then .error disposedMsg
  else
    let r := owCore true lw.w.data src [] lw.w.diff
    .ok { lw with
          w := { lw.w with
                  data := r.t
                  diff := r.dm
                  em := if r.sched then lw.w.em.scheduleEmit now else lw.w.em } }

/-- `LazyWatch.getPendingDiff` (the deep clone is the identity on pure
values). -/
def lwGetPendingDiff (lw : LW) : Except String JVal :=
  if lw.disposed then .error disposedMsg
  else .ok lw.w.diff

/-- `LazyWatch.silent`. -/
def lwSilent (lw : LW) (blockMuts : List Mut) (throws : Bool) (now : Nat) :
    Except String (LW × Option JVal) :=
  if lw.disposed then .error disposedMsg
  else
    let r := silentOp now lw.w blockMuts throws
    .ok ({ lw with w := r.1 }, r.2)

/-! ## Well-formedness predicates -/

mutual

/-- A `JVal` is canonical when every object in it has strictly sorted keys
(the representation invariant of real JS objects in this model). -/
def canonicalB : JVal → Bool
  | .obj fs => canonFieldsB fs
  | .arr es => canonElemsB es
  | _ => true

/-- Canonicity of an object's field list. -/
def canonFieldsB : JFields → Bool
  | [] => true
  | (k, v) :: rest =>
    (match rest with
     | [] => true
     | (k2, _) :: _ => keyLt k k2) && canonicalB v && canonFieldsB rest

/-- Canonicity of an array's elements. -/
def canonElemsB : List JVal → Bool
  | [] => true
  | v :: rest => canonicalB v && canonElemsB rest

end

/-- A non-`null` primitive value. -/
def isPrimNN : JVal → Bool
  | .bool _ => true
  | .num _ => true
  | .str _ => true
  | _ => false

mutual

/-- A tree all of whose containers are objects (no arrays anywhere). -/
def objTreeB : JVal → Bool
  | .obj fs => objTreeFieldsB fs
  | .arr _ => false
  | _ => true

/-- `objTreeB` over an object's field list. -/
def objTreeFieldsB : JFields → Bool
  | [] => true
  | (_, v) :: rest => objTreeB v && objTreeFieldsB rest

end

/-- A key that can be written on the given container within the model: any
non-`length` key of a plain object, or a canonical index key of an array. -/
def goodKeyB (d : JVal) (k : String) : Bool :=
  match d with
  | .obj _ => !(k = "length" : Bool)
  | .arr _ => (parseIdx k).isSome
  | _ => false

/-- Separation of two write entries: their keys differ, and so do the
indices they denote when they are index keys (for canonical index keys this
coincides with plain key distinctness). -/
def KeySep (a b : String × JVal) : Prop :=
  a.1 ≠ b.1 ∧ ∀ i, parseIdx a.1 = some i → parseIdx b.1 ≠ some i

/-- `LazyWatch.patch(target, diff)` as a pure function of the target: the
merge engine in patch mode run against the patching instance's own (fresh)
tracker, keeping only the reconciled target. -/
def patchApply (t s : JVal) : JVal :=
  (owCore true t s [] (.obj [])).t

/-- Strictly sorted field keys: the representation invariant of object
field lists, as a `Pairwise` (so every earlier key is below every later
one). -/
def SortedKeys (fs : JFields) : Prop :=
  List.Pairwise (fun a b => keyLt a.1 b.1 = true) fs

/-- A mutation inside the round-trip claim's amended scope: a write of a
non-`null` primitive value at a key other than `length`, or any deletion. -/
def MutOk : Mut → Prop
  | .set _ k v => isPrimNN v = true ∧ k ≠ "length"
  | .del _ _ => True

/-- The round-trip simulation invariant: the diff fragment `df` carries the
current tree `tf` relative to the original tree `t0f`.  All three field
lists are sorted; `df` never records a numeric `length` (so `#recordChange`
never advances a length on it); and pointwise an absent key means
untouched, `null` means deleted, a primitive means overwritten, and an
object means a recursively simulated sub-tree sitting over objects on both
sides. -/
inductive Sim : JFields → JFields → JFields → Prop where
  | mk (t0f df tf : JFields)
      (hs0 : SortedKeys t0f) (hsd : SortedKeys df) (hst : SortedKeys tf)
      (hlen : ∀ n : Int, olookup df "length" ≠ some (.num n))
      (hnone : ∀ k, olookup df k = none → olookup tf k = olookup t0f k)
      (hnull : ∀ k, olookup df k = some .null → olookup tf k = none)
      (hprim : ∀ k v, olookup df k = some v → isPrimNN v = true →
        olookup tf k = some v)
      (hobj : ∀ k dk, olookup df k = some (.obj dk) →
        ∃ t0k tk, olookup t0f k = some (.obj t0k) ∧
          olookup tf k = some (.obj tk))
      (harr : ∀ k es, olookup df k = some (.arr es) → False)
      (hrec : ∀ k dk t0k tk, olookup df k = some (.obj dk) →
        olookup t0f k = some (.obj t0k) → olookup tf k = some (.obj tk) →
        Sim t0k dk tk) :
      Sim t0f df tf

/-! ## Concrete states used by witnesses and counterexamples -/

/-- A fresh default-options emitter with a single passive root listener. -/
def emDefault : Emitter :=
  { listeners := [⟨0, [], []⟩], immediate := false, timer := none,
    throttle := 0, debounce := 0, lastEmit := 0, paused := false }

/-- A freshly constructed watched root over `d` with default options. -/
def freshW (d : JVal) : WState :=
  { data := d, diff := .obj [], em := emDefault, emissions := [] }

/-- A paused watched root with `debounce = 50`, a pending one-key diff. -/
def pausedDebounceW : WState :=
  { data := .obj [("a", .num 2)],
    diff := .obj [("a", .num 2)],
    em := { listeners := [⟨0, [], []⟩], immediate := false, timer := none,
            throttle := 0, debounce := 50, lastEmit := 0, paused := true },
    emissions := [] }

/-- A watched root with a pending diff, a fired-immediate about to emit, and
one root listener whose callback itself mutates the tree. -/
def reactiveW : WState :=
  { data := .obj [("a", .num 1)],
    diff := .obj [("a", .num 2)],
    em := { listeners := [⟨0, [], [.set [] "b" (.num 3)]⟩], immediate := true,
            timer := none, throttle := 0, debounce := 0, lastEmit := 0,
            paused := false },
    emissions := [] }

/-- A paused watched root with default options and a pending one-key diff. -/
def pausedDefaultW : WState :=
  { data := .obj [("a", .num 2)],
    diff := .obj [("a", .num 2)],
    em := { listeners := [⟨0, [], []⟩], immediate := false, timer := none,
            throttle := 0, debounce := 0, lastEmit := 0, paused := true },
    emissions := [] }

/-! # Supporting lemmas -/

theorem charLtB_irrefl (a : Char) : charLtB a a = false := by
  simp [charLtB]

theorem keyLtB_irrefl (l : List Char) : keyLtB l l = false := by
  induction l with
  | nil => rfl
  | cons a as ih => simp [keyLtB, charLtB_irrefl, ih]

theorem keyLt_irrefl (a : String) : keyLt a a = false :=
  keyLtB_irrefl a.data

theorem olookup_oset_self (fs : JFields) (k : String) (v : JVal) :
    olookup (oset fs k v) k = some v := by
  induction fs with
  | nil => simp [oset, olookup]
  | cons kv rest ih =>
    obtain ⟨k', v'⟩ := kv
    by_cases h1 : keyLt k k'
    · simp [oset, olookup, h1]
    · by_cases h2 : k = k'
      · subst h2
        simp [oset, olookup, keyLt_irrefl]
      · simp [oset, olookup, h1, h2, ih]

theorem olookup_oset_ne (fs : JFields) (k j : String) (v : JVal) (h : j ≠ k) :
    olookup (oset fs k v) j = olookup fs j := by
  induction fs with
  | nil => simp [oset, olookup, h]
  | cons kv rest ih =>
    obtain ⟨k', v'⟩ := kv
    by_cases h1 : keyLt k k'
    · simp [oset, olookup, h1, h]
    · by_cases h2 : k = k'
      · subst h2
        simp [oset, olookup, h1, h]
      · by_cases h3 : j = k'
        · simp [oset, olookup, h1, h2, h3]
        · simp [oset, olookup, h1, h2, h3, ih]

theorem olookup_odelete (fs : JFields) (k j : String) :
    olookup (odelete fs k) j = if j = k then none else olookup fs j := by
  induction fs with
  | nil => simp [odelete, olookup]
  | cons kv rest ih =>
    obtain ⟨k', v'⟩ := kv
    by_cases h3 : k' = k
    · subst h3
      rw [odelete, if_pos rfl, ih]
      by_cases h4 : j = k'
      · rw [if_pos h4, if_pos h4]
      · rw [if_neg h4, if_neg h4, olookup, if_neg h4]
    · rw [odelete, if_neg h3]
      by_cases h4 : j = k'
      · subst h4
        rw [olookup, if_pos rfl, if_neg h3, olookup, if_pos rfl]
      · rw [olookup, if_neg h4, ih, olookup, if_neg h4]

theorem applyMut_emissions (now : Nat) (st : WState) (m : Mut) :
    (applyMut now st m).emissions = st.emissions := by
  cases m with
  | set p k v =>
    simp only [applyMut]
    repeat' split
    all_goals rfl
  | del p k =>
    simp only [applyMut]
    repeat' split
    all_goals rfl

theorem applyMut_listeners (now : Nat) (st : WState) (m : Mut) :
    (applyMut now st m).em.listeners = st.em.listeners := by
  have hs : ∀ em : Emitter, (em.scheduleEmit now).listeners = em.listeners := by
    intro em
    simp only [Emitter.scheduleEmit, Emitter.clearPending]
    repeat' split
    all_goals rfl
  cases m with
  | set p k v =>
    simp only [applyMut]
    repeat' split
    all_goals simp [hs]
  | del p k =>
    simp only [applyMut]
    repeat' split
    all_goals simp [hs]

theorem applyMuts_emissions (now : Nat) (st : WState) (ms : List Mut) :
    (applyMuts now st ms).emissions = st.emissions := by
  induction ms generalizing st with
  | nil => rfl
  | cons m rest ih =>
    simp only [applyMuts, List.foldl_cons] at ih ⊢
    rw [ih, applyMut_emissions]

theorem applyMuts_append (now : Nat) (st : WState) (a b : List Mut) :
    applyMuts now st (a ++ b) = applyMuts now (applyMuts now st a) b := by
  simp [applyMuts, List.foldl_append]

/-- The payloads delivered to the listener list when the consumed fragment
is `d`: one entry per listener whose filtered fragment passes the guard. -/
def payloadsOf (d : JVal) (ls : List Listener) : List (Nat × JVal) :=
  ls.filterMap (fun l =>
    let f := filterDiffByPath d l.path
    if invokeCond f then some (l.id, f) else none)

/-- The reaction mutations performed, in order, by the listeners invoked
when the consumed fragment is `d`. -/
def invokedReactions (d : JVal) (ls : List Listener) : List Mut :=
  (ls.filter (fun l => invokeCond (filterDiffByPath d l.path))).flatMap Listener.reaction

theorem invokedReactions_cons (d : JVal) (l : Listener) (rest : List Listener) :
    invokedReactions d (l :: rest) =
      if invokeCond (filterDiffByPath d l.path) then
        l.reaction ++ invokedReactions d rest
      else invokedReactions d rest := by
  rw [invokedReactions, List.filter_cons]
  split
  · rw [List.flatMap_cons]
    rfl
  · rfl

theorem payloadsOf_cons (d : JVal) (l : Listener) (rest : List Listener) :
    payloadsOf d (l :: rest) =
      if invokeCond (filterDiffByPath d l.path) then
        (l.id, filterDiffByPath d l.path) :: payloadsOf d rest
      else payloadsOf d rest := by
  rw [payloadsOf, List.filterMap_cons]
  split_ifs with h <;> simp_all [payloadsOf]

theorem emitFan_eq (now : Nat) (d : JVal) (ls : List Listener) (st : WState)
    (acc : List (Nat × JVal)) :
    emitFan now d ls st acc =
      (applyMuts now st (invokedReactions d ls), acc ++ payloadsOf d ls) := by
  induction ls generalizing st acc with
  | nil => simp [emitFan, invokedReactions, payloadsOf, applyMuts]
  | cons l rest ih =>
    rw [invokedReactions_cons, payloadsOf_cons]
    by_cases h : invokeCond (filterDiffByPath d l.path)
    · simp only [emitFan, h, if_pos, if_true]
      rw [ih, applyMuts_append]
      simp
    · simp only [emitFan, h, if_neg, Bool.false_eq_true, if_false]
      rw [ih]

theorem invokedReactions_passive (d : JVal) (ls : List Listener)
    (hr : ∀ l ∈ ls, l.reaction = []) : invokedReactions d ls = [] := by
  induction ls with
  | nil => rfl
  | cons l rest ih =>
    rw [invokedReactions_cons]
    split
    · rw [hr l (by simp)]
      simpa using ih (fun x hx => hr x (by simp [hx]))
    · exact ih (fun x hx => hr x (by simp [hx]))

theorem emitFan_passive (now : Nat) (d : JVal) (ls : List Listener) (st : WState)
    (acc : List (Nat × JVal)) (hr : ∀ l ∈ ls, l.reaction = []) :
    (emitFan now d ls st acc).1 = st := by
  rw [emitFan_eq, invokedReactions_passive d ls hr]
  rfl

/-! # The claims -/

/-- C10: deleting, through the wrapper, a key that is not currently present
in the container at the mutation's path is a complete no-op: no tombstone is
recorded in the diff, no delivery is scheduled, and the underlying container
is unchanged. -/
theorem c10_delete_absent_noop (now : Nat) (st : WState) (p : List String)
    (k : String) (t : JVal) (hread : readPath st.data p = some t)
    (habs : keyIn t k = false) :
    applyMut now st (.del p k) = st := by
  simp [applyMut, hread, habs]

/-- Witness for C10: deleting the absent key `b` from a watched `{a: 1}`
leaves the whole engine state unchanged. -/
theorem c10_delete_absent_noop_witness :
    applyMut 0 (freshW (.obj [("a", .num 1)])) (.del [] "b") =
      freshW (.obj [("a", .num 1)]) :=
  c10_delete_absent_noop 0 (freshW (.obj [("a", .num 1)])) [] "b"
    (.obj [("a", .num 1)]) rfl (by decide)

/-- C9: `dispose` is idempotent (the second call is a no-op), and after
disposal every other lifecycle operation — subscribe, unsubscribe, pause,
resume, isPaused, patch, overwrite, get-pending, run-silently — fails with
the disposed-instance error. -/
theorem c9_dispose_idempotent_and_guards :
    (∀ lw : LW, lwDispose (lwDispose lw) = lwDispose lw) ∧
    (∀ lw : LW, lw.disposed = true →
      ∀ (l : Listener) (i : Nat) (src : JVal) (bm : List Mut) (th : Bool) (now : Nat),
        lwOn lw l = .error disposedMsg ∧
        lwOff lw i = .error disposedMsg ∧
        lwPause lw = .error disposedMsg ∧
        lwResume lw now = .error disposedMsg ∧
        lwIsPaused lw = .error disposedMsg ∧
        lwPatch lw src now = .error disposedMsg ∧
        lwOverwrite lw src now = .error disposedMsg ∧
        lwGetPendingDiff lw = .error disposedMsg ∧
        lwSilent lw bm th now = .error disposedMsg) := by
  constructor
  · intro lw
    by_cases h : lw.disposed
    · simp [lwDispose, h]
    · simp [lwDispose, h]
  · intro lw h l i src bm th now
    simp [lwOn, lwOff, lwPause, lwResume, lwIsPaused, lwPatch, lwOverwrite,
      lwGetPendingDiff, lwSilent, h]

/-- Witness for C9: a disposed instance rejects `pause`. -/
theorem c9_dispose_idempotent_and_guards_witness :
    lwPause ⟨true, freshW (.obj [])⟩ = .error disposedMsg :=
  (c9_dispose_idempotent_and_guards.2 ⟨true, freshW (.obj [])⟩ rfl
    ⟨1, [], []⟩ 0 (.obj []) [] false 0).2.2.1

/-- C6 counterexample: on a paused root with `debounce = 50` and a pending
diff, `resume()` does leave the paused state, but it does not schedule an
immediate delivery: it re-enters the ordinary policy and arms the 50 ms
debounce timer instead, so the configured debounce wait is not bypassed. -/
theorem c6_resume_counterexample :
    pausedDebounceW.em.paused = true ∧
    hasPendingChanges pausedDebounceW.diff = true ∧
    (resumeOp 100 pausedDebounceW).em.paused = false ∧
    (resumeOp 100 pausedDebounceW).em.immediate = false ∧
    (resumeOp 100 pausedDebounceW).em.timer = some 50 := by
  decide

/-- C6 (amended): `resume()` on a paused root with a pending diff leaves the
paused state and re-enters the normal scheduling policy: an immediate
delivery is scheduled only when neither debounce nor throttle is configured;
with `debounce > 0` the debounce timer is armed; with `throttle > 0` an
immediate is scheduled only if the throttle window has already elapsed, and
otherwise a timer for the remainder is armed. -/
theorem c6_resume_reenters_policy (st : WState) (now : Nat)
    (_hp : st.em.paused = true) (hpend : hasPendingChanges st.diff = true) :
    (resumeOp now st).em.paused = false ∧
    (resumeOp now st).data = st.data ∧
    (resumeOp now st).diff = st.diff ∧
    (resumeOp now st).emissions = st.emissions ∧
    (st.em.debounce = 0 → st.em.throttle = 0 →
      (resumeOp now st).em.immediate = true ∧ (resumeOp now st).em.timer = none) ∧
    (0 < st.em.debounce →
      (resumeOp now st).em.immediate = false ∧
      (resumeOp now st).em.timer = some st.em.debounce) ∧
    (st.em.debounce = 0 → 0 < st.em.throttle →
      st.em.throttle ≤ now - st.em.lastEmit →
      (resumeOp now st).em.immediate = true ∧ (resumeOp now st).em.timer = none) ∧
    (st.em.debounce = 0 → 0 < st.em.throttle →
      ¬ st.em.throttle ≤ now - st.em.lastEmit →
      (resumeOp now st).em.immediate = false ∧
      (resumeOp now st).em.timer = some (st.em.throttle - (now - st.em.lastEmit))) := by
  have hsched : resumeOp now st =
      { st with em := ({ st.em with paused := false } : Emitter).scheduleEmit now } := by
    simp [resumeOp, hpend]
  rw [hsched]
  refine ⟨?_, rfl, rfl, rfl, ?_, ?_, ?_, ?_⟩
  · simp only [Emitter.scheduleEmit, Emitter.clearPending]
    split_ifs <;> rfl
  · intro h0 h1
    simp [Emitter.scheduleEmit, Emitter.clearPending, h0, h1]
  · intro h0
    have h1 : ¬ st.em.debounce = 0 := by omega
    simp [Emitter.scheduleEmit, Emitter.clearPending, h0, h1]
  · intro h0 h1 h2
    simp [Emitter.scheduleEmit, Emitter.clearPending, h0, h1, h2]
  · intro h0 h1 h2
    simp [Emitter.scheduleEmit, Emitter.clearPending, h0, h1, h2]

/-- Witness for C6 (amended): resuming a paused default-options root with a
pending diff schedules an immediate delivery. -/
theorem c6_resume_reenters_policy_witness :
    (resumeOp 5 pausedDefaultW).em.immediate = true :=
  ((c6_resume_reenters_policy pausedDefaultW 5 rfl rfl).2.2.2.2.1 rfl rfl).1

/-- C8 counterexample: on a watched `{items: [1, 2, 3]}` whose diff already
records index `2` (from `items[2] = 9`), assigning `items.length = 2`
applies the new length to the underlying array and records it in the diff,
but the already-recorded entry at index `2` — now out of range — is
retained, not removed: the pruning branch requires the assigned value to be
an array, which a numeric length assignment never is. -/
theorem c8_length_no_prune_counterexample :
    (applyMut 0 (applyMut 0 (freshW (.obj [("items", .arr [.num 1, .num 2, .num 3])]))
        (.set ["items"] "2" (.num 9)))
      (.set ["items"] "length" (.num 2))).diff
      = .obj [("items", .obj [("2", .num 9), ("length", .num 2)])] ∧
    (applyMut 0 (applyMut 0 (freshW (.obj [("items", .arr [.num 1, .num 2, .num 3])]))
        (.set ["items"] "2" (.num 9)))
      (.set ["items"] "length" (.num 2))).data
      = .obj [("items", .arr [.num 1, .num 2])] :=
  ⟨rfl, rfl⟩

/-- C8 (amended): assigning a new numeric `length`, different from the
current length, to a watched array applies the length change to the
underlying array and records the new length in the diff, but every
already-recorded diff entry — including entries at indices at or beyond the
new length — is retained (pruning happens only in the unreachable-by-number
branch where the assigned value is itself an array). -/
theorem c8_length_applied_entries_retained (now : Nat) (st : WState)
    (ts : List JVal) (fs : JFields) (n : Nat)
    (hdata : st.data = .arr ts) (hdiff : st.diff = .obj fs)
    (hne : ts.length ≠ n) :
    (applyMut now st (.set [] "length" (.num n))).data = .arr (setLen ts n) ∧
    (applyMut now st (.set [] "length" (.num n))).diff
      = .obj (oset fs "length" (.num n)) ∧
    (∀ k, k ≠ "length" →
      olookup (oset fs "length" (.num n)) k = olookup fs k) ∧
    olookup (oset fs "length" (.num n)) "length" = some (.num n) := by
  have hneq : jsNeqOpt (jsGet (.arr ts) "length") (.num n) = true := by
    simp only [jsGet, if_pos rfl, jsNeqOpt, JVal.isObjectOrArray]
    simp [scalarEq]
    omega
  have hpl : parseIdx "length" = none := rfl
  refine ⟨?_, ?_, ?_, olookup_oset_self fs "length" (.num n)⟩
  · simp only [applyMut, hdata, readPath]
    simp [hneq, writePath, jsSet, JVal.isObjectOrArray, JVal.isArr, setLen]
  · simp only [applyMut, hdata, hdiff, readPath]
    simp [hneq, JVal.isObjectOrArray, JVal.isArr, modifyDiffAt, leafRecord,
      hpl, dsetKey]
  · intro k hk
    exact olookup_oset_ne fs "length" k (.num n) hk

/-- Witness for C8 (amended): shrinking `[1]` to length `0` with a pending
diff entry at index `0` keeps that entry. -/
theorem c8_length_applied_entries_retained_witness :
    (applyMut 0 (⟨.arr [.num 1], .obj [("0", .num 5)], emDefault, []⟩ : WState)
      (.set [] "length" (.num 0))).diff
      = .obj (oset [("0", .num 5)] "length" (.num 0)) :=
  (c8_length_applied_entries_retained 0
    (⟨.arr [.num 1], .obj [("0", .num 5)], emDefault, []⟩ : WState)
    [.num 1] [("0", .num 5)] 0 rfl rfl (by decide)).2.1

/-- C7: in every delivery the accumulator's consume() cut-over happens
before any listener is invoked: every payload is computed from the
pre-delivery master diff alone (independently of what the invoked listeners'
callbacks mutate), and the mutations performed by the invoked listeners are
recorded into a fresh fragment that starts empty at the cut-over — they are
never merged into the fragment being delivered. -/
theorem c7_consume_before_listeners (now : Nat) (st : WState)
    (hpend : hasPendingChanges st.diff = true) :
    (emitStep now st).emissions =
      st.emissions ++ [⟨st.diff, payloadsOf st.diff st.em.listeners⟩] ∧
    (emitStep now st).diff =
      (applyMuts now
        { st with diff := .obj [], em := { st.em with lastEmit := now } }
        (invokedReactions st.diff st.em.listeners)).diff ∧
    (emitStep now st).data =
      (applyMuts now
        { st with diff := .obj [], em := { st.em with lastEmit := now } }
        (invokedReactions st.diff st.em.listeners)).data := by
  have h : emitStep now st =
      { applyMuts now
          { st with diff := .obj [], em := { st.em with lastEmit := now } }
          (invokedReactions st.diff st.em.listeners) with
        emissions :=
          (applyMuts now
            { st with diff := .obj [], em := { st.em with lastEmit := now } }
            (invokedReactions st.diff st.em.listeners)).emissions ++
            [⟨st.diff, payloadsOf st.diff st.em.listeners⟩] } := by
    simp only [emitStep, hpend, if_true]
    rw [emitFan_eq]
    simp
  rw [h]
  refine ⟨?_, rfl, rfl⟩
  rw [applyMuts_emissions]

/-- Witness for C7: a delivery on a watched root whose single root listener
itself writes `b = 3`: the delivered payload is the pre-delivery fragment
`{a: 2}`, and the listener's write lands in a fresh fragment. -/
theorem c7_consume_before_listeners_witness :
    (emitStep 7 reactiveW).emissions =
      reactiveW.emissions ++
        [⟨reactiveW.diff, payloadsOf reactiveW.diff reactiveW.em.listeners⟩] ∧
    (emitStep 7 reactiveW).diff =
      (applyMuts 7
        { reactiveW with diff := .obj [],
                         em := { reactiveW.em with lastEmit := 7 } }
        (invokedReactions reactiveW.diff reactiveW.em.listeners)).diff :=
  ⟨(c7_consume_before_listeners 7 reactiveW rfl).1,
   (c7_consume_before_listeners 7 reactiveW rfl).2.1⟩

/-- C5 counterexample: `silent` does not return the accumulated diff when
the mutation block throws.  On a fresh watched `{a: 1}` and block `a = 2`,
normal completion returns `{a: 2}`; the same block followed by a throw
consumes the accumulator (it is left empty) but the call produces no diff —
the exception propagates instead of returning, so "consumes and returns
the diff regardless of whether fn throws" fails on the returning half. -/
theorem c5_silent_counterexample :
    (silentOp 0 (freshW (.obj [("a", .num 1)])) [.set [] "a" (.num 2)] false).2
      = some (.obj [("a", .num 2)]) ∧
    (silentOp 0 (freshW (.obj [("a", .num 1)])) [.set [] "a" (.num 2)] true).2
      = none ∧
    (silentOp 0 (freshW (.obj [("a", .num 1)])) [.set [] "a" (.num 2)] true).1.diff
      = .obj [] :=
  ⟨rfl, rfl, rfl⟩

/-- C5 (amended): on a root whose listeners do not themselves mutate the
tree, `silent` first force-emits any pending diff (so the block starts from
an empty accumulator: the prior fragment is delivered right there when
non-empty, and nothing is delivered otherwise); it then runs the block and —
whether or not the block throws — consumes the diff the block accumulated,
without ever delivering it (neither during the call nor when a scheduled
immediate later fires).  The consumed diff is returned on normal completion;
when the block throws, the exception propagates and nothing is returned. -/
theorem c5_silent_semantics (now : Nat) (st : WState) (muts : List Mut)
    (throws : Bool) (fs : JFields) (hobj : st.diff = .obj fs)
    (hr : ∀ l ∈ st.em.listeners, l.reaction = []) :
    (forceEmit now st).diff = .obj [] ∧
    (silentOp now st muts throws).1.diff = .obj [] ∧
    (throws = false → (silentOp now st muts throws).2 =
      some ((applyMuts now (forceEmit now st) muts).diff)) ∧
    (throws = true → (silentOp now st muts throws).2 = none) ∧
    (silentOp now st muts throws).1.emissions = (forceEmit now st).emissions ∧
    (hasPendingChanges st.diff = true →
      (forceEmit now st).emissions =
        st.emissions ++ [⟨st.diff, payloadsOf st.diff st.em.listeners⟩]) ∧
    (hasPendingChanges st.diff = false →
      (forceEmit now st).emissions = st.emissions) ∧
    (∀ now2, (flushImmediate now2 (silentOp now st muts throws).1).emissions =
      (silentOp now st muts throws).1.emissions) := by
  have hlis : (st.em.clearPending).listeners = st.em.listeners := rfl
  have hforce : ∀ h : hasPendingChanges st.diff = true,
      forceEmit now st =
        { st with
            diff := .obj [],
            em := { st.em.clearPending with lastEmit := now },
            emissions :=
              st.emissions ++ [⟨st.diff, payloadsOf st.diff st.em.listeners⟩] } := by
    intro h
    rw [forceEmit]
    simp only [h, if_true, emitStep]
    rw [emitFan_eq, invokedReactions_passive _ _ (by rw [hlis]; exact hr)]
    simp [applyMuts, Emitter.clearPending]
  have hforce2 : ∀ _ : hasPendingChanges st.diff = false,
      forceEmit now st = { st with em := st.em.clearPending } := by
    intro h
    rw [forceEmit]
    simp [h]
  have hfd : (forceEmit now st).diff = .obj [] := by
    by_cases h : hasPendingChanges st.diff
    · rw [hforce h]
    · have : fs = [] := by
        have := h
        rw [hobj] at this
        simpa [hasPendingChanges, List.isEmpty_iff] using this
      rw [hforce2 (by simpa using h)]
      simp [hobj, this]
  refine ⟨hfd, rfl, fun h => by simp [silentOp, h], fun h => by simp [silentOp, h],
    ?_, ?_, ?_, ?_⟩
  · show (applyMuts now (forceEmit now st) muts).emissions = (forceEmit now st).emissions
    exact applyMuts_emissions now _ muts
  · intro h
    rw [hforce h]
  · intro h
    rw [hforce2 h]
  · intro now2
    have hd : (silentOp now st muts throws).1.diff = .obj [] := rfl
    rw [flushImmediate]
    split
    · simp [emitStep, hd, hasPendingChanges]
    · rfl

/-- Witness for C5 (amended): a silent block `a = 2` on a fresh watched
`{a: 1}` returns exactly the diff the block accumulated. -/
theorem c5_silent_semantics_witness :
    (silentOp 3 (freshW (.obj [("a", .num 1)])) [.set [] "a" (.num 2)] false).2 =
      some ((applyMuts 3 (forceEmit 3 (freshW (.obj [("a", .num 1)])))
        [.set [] "a" (.num 2)]).diff) :=
  (c5_silent_semantics 3 (freshW (.obj [("a", .num 1)])) [.set [] "a" (.num 2)]
    false [] rfl
    (fun l hl => by
      simp [freshW, emDefault] at hl
      rw [hl])).2.2.1 rfl

theorem olookup_eq_none_iff (fs : JFields) (k : String) :
    olookup fs k = none ↔ k ∉ fs.map Prod.fst := by
  induction fs with
  | nil => simp [olookup]
  | cons kv rest ih =>
    obtain ⟨k', v'⟩ := kv
    by_cases hk : k = k'
    · simp [olookup, hk]
    · simp [olookup, hk, ih]

theorem olookup_mem_keys (fs : JFields) (k : String) (v : JVal)
    (h : olookup fs k = some v) : k ∈ fs.map Prod.fst := by
  by_contra hmem
  rw [← olookup_eq_none_iff] at hmem
  rw [hmem] at h
  exact Option.noConfusion h

theorem owGoFields_nil (pm : Bool) (t : JVal) (path : List String) (dm : JVal)
    (hc sc : Bool) : owGoFields pm [] t path dm hc sc = ⟨t, dm, hc, sc⟩ := rfl

theorem owGoFields_cons (pm : Bool) (k' : String) (sv : JVal) (rest : JFields)
    (t : JVal) (path : List String) (dm : JVal) (hc sc : Bool) :
    owGoFields pm ((k', sv) :: rest) t path dm hc sc =
      if sv.isNullB then owGoFields pm rest (jsDelete t k') path dm hc sc
      else if ((jsGet t k').map JVal.isObjectOrArray).getD false && sv.isObjectOrArray then
        owGoFields pm rest
          (jsSet t k' (owCore pm ((jsGet t k').getD .null) sv (path ++ [k']) dm).t)
          path (owCore pm ((jsGet t k').getD .null) sv (path ++ [k']) dm).dm hc
          (sc || (owCore pm ((jsGet t k').getD .null) sv (path ++ [k']) dm).sched)
      else if jsNeqOpt (jsGet t k') sv then
        owGoFields pm rest (jsSet t k' (cloneStripNulls sv)) path
          (dsetAt dm path k' (cloneStripNulls sv)) true sc
      else owGoFields pm rest t path dm hc sc := rfl

theorem owGoFields_obj_notmem (pm : Bool) (sf : JFields) (tf : JFields)
    (path : List String) (dm : JVal) (hc sc : Bool) (k : String)
    (hk : k ∉ sf.map Prod.fst) :
    ∃ tf', (owGoFields pm sf (.obj tf) path dm hc sc).t = .obj tf' ∧
      olookup tf' k = olookup tf k := by
  induction sf generalizing tf dm hc sc with
  | nil => exact ⟨tf, rfl, rfl⟩
  | cons kv rest ih =>
    obtain ⟨k', sv⟩ := kv
    have hkk : k ≠ k' := fun h => hk (by simp [h])
    have hkrest : k ∉ rest.map Prod.fst := fun h => hk (by simp [h])
    rw [owGoFields_cons]
    split_ifs with h1 h2 h3
    · have hdel : jsDelete (.obj tf) k' = .obj (odelete tf k') := rfl
      rw [hdel]
      obtain ⟨tf', he, hl⟩ := ih (odelete tf k') dm hc sc hkrest
      refine ⟨tf', he, ?_⟩
      rw [hl, olookup_odelete, if_neg hkk]
    · have hset : jsSet (.obj tf) k'
          (owCore pm ((jsGet (.obj tf) k').getD .null) sv (path ++ [k']) dm).t =
          .obj (oset tf k'
            (owCore pm ((jsGet (.obj tf) k').getD .null) sv (path ++ [k']) dm).t) := rfl
      rw [hset]
      obtain ⟨tf', he, hl⟩ := ih _ _ hc _ hkrest
      refine ⟨tf', he, ?_⟩
      rw [hl, olookup_oset_ne _ _ _ _ hkk]
    · have hset : jsSet (.obj tf) k' (cloneStripNulls sv) =
          .obj (oset tf k' (cloneStripNulls sv)) := rfl
      rw [hset]
      obtain ⟨tf', he, hl⟩ := ih _ _ true sc hkrest
      refine ⟨tf', he, ?_⟩
      rw [hl, olookup_oset_ne _ _ _ _ hkk]
    · exact ih tf dm hc sc hkrest

theorem owGoFields_null_src (pm : Bool) (sf : JFields) (tf : JFields)
    (path : List String) (dm : JVal) (hc sc : Bool) (k : String)
    (hnodup : (sf.map Prod.fst).Nodup) (hmem : olookup sf k = some .null) :
    ∃ tf', (owGoFields pm sf (.obj tf) path dm hc sc).t = .obj tf' ∧
      olookup tf' k = none := by
  induction sf generalizing tf dm hc sc with
  | nil => simp [olookup] at hmem
  | cons kv rest ih =>
    obtain ⟨k', sv⟩ := kv
    have hnodup' : k' ∉ rest.map Prod.fst ∧ (rest.map Prod.fst).Nodup := by
      rw [List.map_cons, List.nodup_cons] at hnodup
      exact hnodup
    by_cases hkk : k = k'
    · subst hkk
      rw [olookup, if_pos rfl] at hmem
      have hsv : sv = .null := Option.some_inj.mp hmem
      subst hsv
      rw [owGoFields_cons, if_pos (show JVal.isNullB .null = true from rfl)]
      have hdel : jsDelete (.obj tf) k = .obj (odelete tf k) := rfl
      rw [hdel]
      obtain ⟨tf', he, hl⟩ :=
        owGoFields_obj_notmem pm rest (odelete tf k) path dm hc sc k hnodup'.1
      refine ⟨tf', he, ?_⟩
      rw [hl, olookup_odelete, if_pos rfl]
    · rw [olookup, if_neg hkk] at hmem
      rw [owGoFields_cons]
      split_ifs with h1 h2 h3
      · have hdel : jsDelete (.obj tf) k' = .obj (odelete tf k') := rfl
        rw [hdel]
        exact ih (odelete tf k') dm hc sc hnodup'.2 hmem
      · have hset : jsSet (.obj tf) k'
            (owCore pm ((jsGet (.obj tf) k').getD .null) sv (path ++ [k']) dm).t =
            .obj (oset tf k'
              (owCore pm ((jsGet (.obj tf) k').getD .null) sv (path ++ [k']) dm).t) := rfl
        rw [hset]
        exact ih _ _ hc _ hnodup'.2 hmem
      · have hset : jsSet (.obj tf) k' (cloneStripNulls sv) =
            .obj (oset tf k' (cloneStripNulls sv)) := rfl
        rw [hset]
        exact ih _ _ true sc hnodup'.2 hmem
      · exact ih tf dm hc sc hnodup'.2 hmem

theorem owDelLoop_lookup (s : JVal) (path : List String) (keys : List String)
    (tf : JFields) (dm : JVal) (hc : Bool) (k : String) :
    ∃ tf', (owDelLoop s path keys (.obj tf) dm hc).t = .obj tf' ∧
      olookup tf' k =
        if k ∈ keys ∧ sourceMissing s k = true then none else olookup tf k := by
  induction keys generalizing tf dm hc with
  | nil => simp [owDelLoop]
  | cons k0 rest ih =>
    by_cases hm : sourceMissing s k0 = true
    · rw [owDelLoop, if_pos hm]
      have hdel : jsDelete (.obj tf) k0 = .obj (odelete tf k0) := rfl
      rw [hdel]
      obtain ⟨tf', he, hl⟩ := ih (odelete tf k0) (dsetAt dm path k0 .null) true
      refine ⟨tf', he, ?_⟩
      rw [hl, olookup_odelete]
      by_cases hk : k = k0
      · subst hk
        simp [hm]
      · simp only [if_neg hk]
        by_cases hr : k ∈ rest ∧ sourceMissing s k = true
        · rw [if_pos hr, if_pos ⟨by simp [hr.1], hr.2⟩]
        · rw [if_neg hr, if_neg (by
            rintro ⟨hmem, hsm⟩
            rcases List.mem_cons.mp hmem with h | h
            · exact hk h
            · exact hr ⟨h, hsm⟩)]
    · rw [owDelLoop, if_neg hm]
      obtain ⟨tf', he, hl⟩ := ih tf dm hc
      refine ⟨tf', he, ?_⟩
      rw [hl]
      by_cases hr : k ∈ rest ∧ sourceMissing s k = true
      · rw [if_pos hr, if_pos ⟨by simp [hr.1], hr.2⟩]
      · rw [if_neg hr, if_neg (by
          rintro ⟨hmem, hsm⟩
          rcases List.mem_cons.mp hmem with h | h
          · subst h
            exact hm hsm
          · exact hr ⟨h, hsm⟩)]

theorem owCore_obj (pm : Bool) (t : JVal) (sf : JFields) (path : List String)
    (dm : JVal) :
    owCore pm t (.obj sf) path dm =
      owFinish pm (owGoFields pm sf t path dm false false) (.obj sf) path := rfl

theorem owFinish_true_t (r : OwRes) (s : JVal) (path : List String) :
    (owFinish true r s path).t = r.t := by
  simp [owFinish]

theorem owFinish_false_obj (r : OwRes) (s : JVal) (path : List String)
    (tf : JFields) (h : r.t = .obj tf) :
    (owFinish false r s path).t =
      (owDelLoop s path (tf.map Prod.fst) (.obj tf) r.dm r.hc).t := by
  simp [owFinish, h, JVal.isArr]

theorem owFinish_arr_t (pm : Bool) (r : OwRes) (s : JVal) (path : List String)
    (ts : List JVal) (h : r.t = .arr ts) :
    (owFinish pm r s path).t = r.t := by
  simp [owFinish, h, JVal.isArr]

theorem sourceMissing_obj (sf : JFields) (k : String)
    (h : olookup sf k = none ∨ olookup sf k = some .null) :
    sourceMissing (.obj sf) k = true := by
  rcases h with h | h <;> simp [sourceMissing, jsGet, h]

theorem set_get_ne (ts : List JVal) (i j : Nat) (x : JVal) (h : i ≠ j) :
    (ts.set j x).get? i = ts.get? i := by
  induction ts generalizing i j with
  | nil => simp
  | cons e rest ih =>
    cases j with
    | zero =>
      cases i with
      | zero => exact absurd rfl h
      | succ i' => simp [List.set]
    | succ j' =>
      cases i with
      | zero => simp [List.set]
      | succ i' => simpa [List.set] using ih i' j' (fun hh => h (by rw [hh]))

theorem setIdx_get_ne (ts : List JVal) (i j : Nat) (x v : JVal) (h : i ≠ j)
    (hi : ts.get? i = some v) : (setIdx ts j x).get? i = some v := by
  induction ts generalizing i j with
  | nil => simp at hi
  | cons e rest ih =>
    cases j with
    | zero =>
      cases i with
      | zero => exact absurd rfl h
      | succ i' => simpa [setIdx] using hi
    | succ j' =>
      cases i with
      | zero => simpa [setIdx] using hi
      | succ i' =>
        simp only [setIdx, List.get?]
        simp only [List.get?] at hi
        exact ih i' j' (fun hh => h (by rw [hh])) hi

theorem jsSet_arr_keep (ts : List JVal) (k : String) (x v : JVal) (i : Nat)
    (hk : k ≠ "length") (hp : parseIdx k ≠ some i) (hi : ts.get? i = some v) :
    ∃ ts2, jsSet (.arr ts) k x = .arr ts2 ∧ ts2.get? i = some v := by
  rcases hj : parseIdx k with _ | j
  · refine ⟨ts, ?_, hi⟩
    simp [jsSet, hk, hj]
  · refine ⟨setIdx ts j x, ?_, ?_⟩
    · simp [jsSet, hk, hj]
    · exact setIdx_get_ne ts i j x v (fun hh => hp (by rw [hj, hh])) hi

theorem jsDelete_arr_keep (ts : List JVal) (k : String) (v : JVal) (i : Nat)
    (hp : parseIdx k ≠ some i) (hi : ts.get? i = some v) :
    ∃ ts2, jsDelete (.arr ts) k = .arr ts2 ∧ ts2.get? i = some v := by
  rcases hj : parseIdx k with _ | j
  · exact ⟨ts, by simp [jsDelete, hj], hi⟩
  · by_cases hlt : j < ts.length
    · refine ⟨ts.set j .null, by simp [jsDelete, hj, hlt], ?_⟩
      rw [set_get_ne ts i j .null (fun hh => hp (by rw [hj, hh]))]
      exact hi
    · exact ⟨ts, by simp [jsDelete, hj, hlt], hi⟩

theorem owGoFields_arr_keep (pm : Bool) (sf : JFields) (ts : List JVal)
    (path : List String) (dm : JVal) (hc sc : Bool) (i : Nat) (v : JVal)
    (hik : ∀ k' ∈ sf.map Prod.fst, parseIdx k' ≠ some i)
    (hlen : "length" ∉ sf.map Prod.fst)
    (hi : ts.get? i = some v) :
    ∃ ts', (owGoFields pm sf (.arr ts) path dm hc sc).t = .arr ts' ∧
      ts'.get? i = some v := by
  induction sf generalizing ts dm hc sc with
  | nil => exact ⟨ts, rfl, hi⟩
  | cons kv rest ih =>
    obtain ⟨k', sv⟩ := kv
    have hk1 : parseIdx k' ≠ some i := hik k' (by simp)
    have hk2 : k' ≠ "length" := fun h => hlen (by simp [h])
    have hikr : ∀ k2 ∈ rest.map Prod.fst, parseIdx k2 ≠ some i :=
      fun k2 h2 => hik k2 (by simp [h2])
    have hlenr : "length" ∉ rest.map Prod.fst := fun h => hlen (by simp [h])
    rw [owGoFields_cons]
    split_ifs with h1 h2 h3
    · obtain ⟨ts2, he, h2i⟩ := jsDelete_arr_keep ts k' v i hk1 hi
      rw [he]
      exact ih ts2 dm hc sc hikr hlenr h2i
    · obtain ⟨ts2, he, h2i⟩ := jsSet_arr_keep ts k'
        (owCore pm ((jsGet (.arr ts) k').getD .null) sv (path ++ [k']) dm).t v i
        hk2 hk1 hi
      rw [he]
      exact ih ts2 _ hc _ hikr hlenr h2i
    · obtain ⟨ts2, he, h2i⟩ := jsSet_arr_keep ts k' (cloneStripNulls sv) v i hk2 hk1 hi
      rw [he]
      exact ih ts2 _ true sc hikr hlenr h2i
    · exact ih ts dm hc sc hikr hlenr hi

/-- C2: the merge engine's two modes.  `overwrite` on an object target
deletes every key present in the target but absent or explicitly `null` in
the source; an array target is never pruned by absence (an element whose
index the source does not mention survives); `patch` leaves keys not
mentioned in the source untouched; and on the claim's concrete inputs,
`overwrite({a:1,b:2,c:3}, {a:10,d:4})` yields `{a:10,d:4}` while `patch` on
the same inputs yields `{a:10,b:2,c:3,d:4}`. -/
theorem c2_overwrite_vs_patch :
    (∀ (tf sf : JFields) (path : List String) (dm : JVal) (k : String),
      (sf.map Prod.fst).Nodup →
      olookup tf k ≠ none →
      (olookup sf k = none ∨ olookup sf k = some .null) →
      jsGet (owCore false (.obj tf) (.obj sf) path dm).t k = none) ∧
    (∀ (sf : JFields) (ts : List JVal) (path : List String) (dm : JVal)
      (i : Nat) (v : JVal),
      (∀ k' ∈ sf.map Prod.fst, parseIdx k' ≠ some i) →
      "length" ∉ sf.map Prod.fst →
      ts.get? i = some v →
      ∃ ts', (owCore false (.arr ts) (.obj sf) path dm).t = .arr ts' ∧
        ts'.get? i = some v) ∧
    (∀ (tf sf : JFields) (path : List String) (dm : JVal) (k : String),
      k ∉ sf.map Prod.fst →
      jsGet (owCore true (.obj tf) (.obj sf) path dm).t k = olookup tf k) ∧
    ((owCore false
        (.obj [("a", .num 1), ("b", .num 2), ("c", .num 3)])
        (.obj [("a", .num 10), ("d", .num 4)]) [] (.obj [])).t =
      .obj [("a", .num 10), ("d", .num 4)] ∧
     (owCore true
        (.obj [("a", .num 1), ("b", .num 2), ("c", .num 3)])
        (.obj [("a", .num 10), ("d", .num 4)]) [] (.obj [])).t =
      .obj [("a", .num 10), ("b", .num 2), ("c", .num 3), ("d", .num 4)]) := by
  refine ⟨?_, ?_, ?_, rfl, rfl⟩
  · intro tf sf path dm k hnodup hpres hmiss
    rw [owCore_obj]
    have hsm : sourceMissing (.obj sf) k = true := sourceMissing_obj sf k hmiss
    rcases hmiss with hm | hm
    · have hk : k ∉ sf.map Prod.fst := (olookup_eq_none_iff sf k).mp hm
      obtain ⟨tf', he, hl⟩ :=
        owGoFields_obj_notmem false sf tf path dm false false k hk
      rw [owFinish_false_obj _ _ _ tf' he]
      obtain ⟨tf'', he2, hl2⟩ :=
        owDelLoop_lookup (.obj sf) path (tf'.map Prod.fst) tf'
          (owGoFields false sf (.obj tf) path dm false false).dm
          (owGoFields false sf (.obj tf) path dm false false).hc k
      rw [he2]
      show olookup tf'' k = none
      rw [hl2]
      rcases ho : olookup tf k with _ | v
      · exact absurd ho hpres
      · have hmemk : k ∈ tf'.map Prod.fst :=
          olookup_mem_keys tf' k v (by rw [hl, ho])
        rw [if_pos ⟨hmemk, hsm⟩]
    · obtain ⟨tf', he, hl⟩ :=
        owGoFields_null_src false sf tf path dm false false k hnodup hm
      rw [owFinish_false_obj _ _ _ tf' he]
      obtain ⟨tf'', he2, hl2⟩ :=
        owDelLoop_lookup (.obj sf) path (tf'.map Prod.fst) tf'
          (owGoFields false sf (.obj tf) path dm false false).dm
          (owGoFields false sf (.obj tf) path dm false false).hc k
      rw [he2]
      show olookup tf'' k = none
      rw [hl2]
      split
      · rfl
      · exact hl
  · intro sf ts path dm i v hik hlen hi
    rw [owCore_obj]
    obtain ⟨ts', he, hl⟩ :=
      owGoFields_arr_keep false sf ts path dm false false i v hik hlen hi
    rw [owFinish_arr_t false _ _ _ ts' he, he]
    exact ⟨ts', rfl, hl⟩
  · intro tf sf path dm k hk
    rw [owCore_obj, owFinish_true_t]
    obtain ⟨tf', he, hl⟩ :=
      owGoFields_obj_notmem true sf tf path dm false false k hk
    rw [he]
    exact hl

/-- Witness for C2: on `overwrite({a:1,b:2}, {a:5})` the absent key `b` is
deleted; on `patch` of the same inputs it is untouched. -/
theorem c2_overwrite_vs_patch_witness :
    jsGet (owCore false (.obj [("a", .num 1), ("b", .num 2)])
      (.obj [("a", .num 5)]) [] (.obj [])).t "b" = none ∧
    jsGet (owCore true (.obj [("a", .num 1), ("b", .num 2)])
      (.obj [("a", .num 5)]) [] (.obj [])).t "b" = some (.num 2) :=
  ⟨c2_overwrite_vs_patch.1 [("a", .num 1), ("b", .num 2)] [("a", .num 5)]
      [] (.obj []) "b" (by simp) (by simp [olookup]) (Or.inl (by simp [olookup])),
   by
    rw [c2_overwrite_vs_patch.2.2.1 [("a", .num 1), ("b", .num 2)] [("a", .num 5)]
      [] (.obj []) "b" (by simp)]
    simp [olookup]⟩

theorem mem_payloadsOf_of_invoke (d : JVal) (ls : List Listener) (l : Listener)
    (hl : l ∈ ls) (hinv : invokeCond (filterDiffByPath d l.path) = true) :
    (l.id, filterDiffByPath d l.path) ∈ payloadsOf d ls := by
  rw [payloadsOf]
  apply List.mem_filterMap.mpr
  exact ⟨l, hl, by simp [hinv]⟩

theorem not_mem_payloadsOf (d : JVal) (ls : List Listener) (l : Listener)
    (hid : (ls.map Listener.id).Nodup) (hl : l ∈ ls)
    (hinv : invokeCond (filterDiffByPath d l.path) = false) :
    ∀ x, (l.id, x) ∉ payloadsOf d ls := by
  intro x hmem
  rw [payloadsOf] at hmem
  obtain ⟨a, ha, hfa⟩ := List.mem_filterMap.mp hmem
  by_cases hcond : invokeCond (filterDiffByPath d a.path) = true
  · simp only [hcond, if_true, Option.some_inj] at hfa
    have hids : a.id = l.id := by
      have := congrArg Prod.fst hfa
      simpa using this
    have : a = l := List.inj_on_of_nodup_map hid ha hl hids
    rw [this] at hcond
    rw [hcond] at hinv
    exact Bool.noConfusion hinv
  · simp only [Bool.not_eq_true] at hcond
    simp [hcond] at hfa

/-- C4 counterexample: deleting `user` from a watched `{user: {name:
'Alice'}}` with a root listener (id 0) and a listener scoped at `user`
(id 1) delivers `{user: null}` to the root listener only.  The segment
`user` is present in the diff and descending along the path yields the
tombstone `null`, yet the scoped listener is not invoked at all — against
the claim that it receives the sub-fragment whenever no segment of its path
is absent from the diff. -/
theorem c4_scoped_listener_counterexample :
    (flushImmediate 1 (applyMut 0
      (⟨.obj [("user", .obj [("name", .str "Alice")])], .obj [],
        { listeners := [⟨0, [], []⟩, ⟨1, ["user"], []⟩], immediate := false,
          timer := none, throttle := 0, debounce := 0, lastEmit := 0,
          paused := false }, []⟩ : WState)
      (.del [] "user"))).emissions =
      [⟨.obj [("user", .null)], [(0, .obj [("user", .null)])]⟩] ∧
    keyIn (.obj [("user", .null)]) "user" = true ∧
    filterDiffByPath (.obj [("user", .null)]) ["user"] = .null :=
  ⟨rfl, rfl, rfl⟩

/-- C4 (amended): each delivery consumes the master diff and invokes exactly
those listeners whose path-filtered sub-fragment is truthy and has at least
one enumerable key, with that sub-fragment as payload: a root-path listener
receives the full diff; a listener at a non-root path receives the fragment
reached by descending along its path, and is not invoked when a segment of
its path is absent (the filter yields `{}`) — nor when the reached
sub-fragment is a tombstone, a primitive, or an empty container.  On the
claim's example, mutating `user.name` on `{user: {name: 'Alice'}}` delivers
`{user: {name: 'Bob'}}` to the root subscriber and `{name: 'Bob'}` to the
subscriber scoped at `user`. -/
theorem c4_path_scoped_delivery (now : Nat) (st : WState)
    (hpend : hasPendingChanges st.diff = true)
    (hid : (st.em.listeners.map Listener.id).Nodup) :
    (emitStep now st).emissions =
      st.emissions ++ [⟨st.diff, payloadsOf st.diff st.em.listeners⟩] ∧
    (∀ d : JVal, filterDiffByPath d [] = d) ∧
    (∀ d seg rest, (d.isObjectOrArray && keyIn d seg) = false →
      filterDiffByPath d (seg :: rest) = .obj [] ∧
      invokeCond (filterDiffByPath d (seg :: rest)) = false) ∧
    (∀ d seg rest, (d.isObjectOrArray && keyIn d seg) = true →
      filterDiffByPath d (seg :: rest) =
        filterDiffByPath ((jsGet d seg).getD .null) rest) ∧
    (∀ l ∈ st.em.listeners,
      (invokeCond (filterDiffByPath st.diff l.path) = true →
        (l.id, filterDiffByPath st.diff l.path) ∈
          payloadsOf st.diff st.em.listeners) ∧
      (invokeCond (filterDiffByPath st.diff l.path) = false →
        ∀ x, (l.id, x) ∉ payloadsOf st.diff st.em.listeners)) ∧
    (flushImmediate 1 (applyMut 0
      (⟨.obj [("user", .obj [("name", .str "Alice")])], .obj [],
        { listeners := [⟨0, [], []⟩, ⟨1, ["user"], []⟩], immediate := false,
          timer := none, throttle := 0, debounce := 0, lastEmit := 0,
          paused := false }, []⟩ : WState)
      (.set ["user"] "name" (.str "Bob")))).emissions =
      [⟨.obj [("user", .obj [("name", .str "Bob")])],
        [(0, .obj [("user", .obj [("name", .str "Bob")])]),
         (1, .obj [("name", .str "Bob")])]⟩] := by
  refine ⟨?_, fun d => rfl, ?_, ?_, ?_, rfl⟩
  · simp only [emitStep, hpend, if_true]
    rw [emitFan_eq]
    simp [applyMuts_emissions]
  · intro d seg rest h
    constructor
    · rw [filterDiffByPath, if_neg (by simp [h])]
    · rw [filterDiffByPath, if_neg (by simp [h])]
      rfl
  · intro d seg rest h
    rw [filterDiffByPath, if_pos h]
  · intro l hl
    exact ⟨fun hinv => mem_payloadsOf_of_invoke st.diff st.em.listeners l hl hinv,
      fun hinv => not_mem_payloadsOf st.diff st.em.listeners l hid hl hinv⟩

/-- Witness for C4 (amended): on a concrete state with a pending
`{user: {name: 'Bob'}}` fragment, the root listener's payload is in the
delivered set. -/
theorem c4_path_scoped_delivery_witness :
    (0, filterDiffByPath (.obj [("user", .obj [("name", .str "Bob")])]) []) ∈
      payloadsOf (.obj [("user", .obj [("name", .str "Bob")])])
        [⟨0, [], []⟩, ⟨1, ["user"], []⟩] :=
  (((c4_path_scoped_delivery 0
    (⟨.obj [("user", .obj [("name", .str "Alice")])],
      .obj [("user", .obj [("name", .str "Bob")])],
      { listeners := [⟨0, [], []⟩, ⟨1, ["user"], []⟩], immediate := true,
        timer := none, throttle := 0, debounce := 0, lastEmit := 0,
        paused := false }, []⟩ : WState) rfl (by simp)).2.2.2.2.1
    ⟨0, [], []⟩ (by simp)).1) rfl

theorem scalarEq_null_prim (x : JVal) (h : isPrimNN x = true) :
    scalarEq .null x = false := by
  cases x <;> simp_all [isPrimNN, scalarEq]

theorem parseIdx_length_none : parseIdx "length" = none := rfl

theorem setIdx_get_self (es : List JVal) (i : Nat) (v : JVal) :
    (setIdx es i v).get? i = some v := by
  induction es generalizing i with
  | nil =>
    induction i with
    | zero => rfl
    | succ i' ih => simpa [setIdx] using ih
  | cons e rest ih =>
    cases i with
    | zero => rfl
    | succ i' => simpa [setIdx] using ih i'

theorem setIdx_get_other (es : List JVal) (i j : Nat) (v : JVal) (h : j ≠ i) :
    (setIdx es i v).get? j = es.get? j ∨
      (es.get? j = none ∧ (setIdx es i v).get? j = some .null) := by
  induction es generalizing i j with
  | nil =>
    induction i generalizing j with
    | zero =>
      cases j with
      | zero => exact absurd rfl h
      | succ j' => left; simp [setIdx]
    | succ i' ih =>
      cases j with
      | zero => right; simp [setIdx]
      | succ j' =>
        rcases ih j' (fun hh => h (by rw [hh])) with hcase | hcase
        · left
          simpa [setIdx] using hcase
        · right
          refine ⟨by simp, ?_⟩
          simpa [setIdx] using hcase.2
  | cons e rest ih =>
    cases i with
    | zero =>
      cases j with
      | zero => exact absurd rfl h
      | succ j' => left; simp [setIdx]
    | succ i' =>
      cases j with
      | zero => left; simp [setIdx]
      | succ j' =>
        rcases ih i' j' (fun hh => h (by rw [hh])) with hcase | hcase
        · left
          simpa [setIdx] using hcase
        · right
          refine ⟨by simpa using hcase.1, by simpa [setIdx] using hcase.2⟩

theorem goodKey_ne_length_arr (es : List JVal) (k : String)
    (h : goodKeyB (.arr es) k = true) : k ≠ "length" := by
  intro hk
  rw [hk] at h
  simp [goodKeyB, parseIdx_length_none] at h

theorem jsSet_shape_obj (fs : JFields) (k : String) (v : JVal) :
    jsSet (.obj fs) k v = .obj (oset fs k v) := rfl

theorem jsSet_shape_arr (es : List JVal) (k : String) (v : JVal) :
    ∃ es', jsSet (.arr es) k v = .arr es' := by
  by_cases hk : k = "length"
  · subst hk
    cases v with
    | num n =>
      by_cases hn : 0 ≤ n
      · exact ⟨setLen es n.toNat, by simp [jsSet, hn]⟩
      · exact ⟨es, by simp [jsSet, hn]⟩
    | null => exact ⟨es, by simp [jsSet]⟩
    | bool b => exact ⟨es, by simp [jsSet]⟩
    | str s2 => exact ⟨es, by simp [jsSet]⟩
    | obj fs => exact ⟨es, by simp [jsSet]⟩
    | arr es2 => exact ⟨es, by simp [jsSet]⟩
  · rcases hi : parseIdx k with _ | i
    · exact ⟨es, by simp [jsSet, hk, hi]⟩
    · exact ⟨setIdx es i v, by simp [jsSet, hk, hi]⟩

theorem goodKeyB_jsSet (d : JVal) (k k2 : String) (v : JVal)
    (hsh : d.isObjectOrArray = true) :
    goodKeyB (jsSet d k v) k2 = goodKeyB d k2 := by
  cases d with
  | obj fs => rfl
  | arr es =>
    obtain ⟨es', he⟩ := jsSet_shape_arr es k v
    rw [he]
    rfl
  | null => simp [JVal.isObjectOrArray] at hsh
  | bool b => simp [JVal.isObjectOrArray] at hsh
  | num n => simp [JVal.isObjectOrArray] at hsh
  | str s2 => simp [JVal.isObjectOrArray] at hsh

theorem jsSet_isObjectOrArray (d : JVal) (k : String) (v : JVal)
    (hsh : d.isObjectOrArray = true) :
    (jsSet d k v).isObjectOrArray = true := by
  cases d with
  | obj fs => rfl
  | arr es =>
    obtain ⟨es', he⟩ := jsSet_shape_arr es k v
    rw [he]
    rfl
  | null => simp [JVal.isObjectOrArray] at hsh
  | bool b => simp [JVal.isObjectOrArray] at hsh
  | num n => simp [JVal.isObjectOrArray] at hsh
  | str s2 => simp [JVal.isObjectOrArray] at hsh

theorem jsGet_jsSet_self (d : JVal) (k : String) (v : JVal)
    (hgood : goodKeyB d k = true) :
    jsGet (jsSet d k v) k = some v := by
  cases d with
  | obj fs =>
    rw [jsSet_shape_obj, jsGet]
    exact olookup_oset_self fs k v
  | arr es =>
    have hkl : k ≠ "length" := goodKey_ne_length_arr es k hgood
    rcases hi : parseIdx k with _ | i
    · rw [goodKeyB, hi] at hgood
      simp at hgood
    · have hset : jsSet (.arr es) k v = .arr (setIdx es i v) := by
        simp [jsSet, hkl, hi]
      rw [hset, jsGet, if_neg hkl, hi]
      exact setIdx_get_self es i v
  | null => simp [goodKeyB] at hgood
  | bool b => simp [goodKeyB] at hgood
  | num n => simp [goodKeyB] at hgood
  | str s2 => simp [goodKeyB] at hgood

theorem jsGet_jsSet_other (d : JVal) (k k2 : String) (v : JVal)
    (hgood : goodKeyB d k = true) (hgood2 : goodKeyB d k2 = true)
    (hne : k ≠ k2) (hsep : ∀ i, parseIdx k = some i → parseIdx k2 ≠ some i) :
    jsGet (jsSet d k v) k2 = jsGet d k2 ∨
      (jsGet d k2 = none ∧ jsGet (jsSet d k v) k2 = some .null) := by
  cases d with
  | obj fs =>
    left
    rw [jsSet_shape_obj, jsGet, jsGet]
    exact olookup_oset_ne fs k k2 v (Ne.symm hne)
  | arr es =>
    have hkl : k ≠ "length" := goodKey_ne_length_arr es k hgood
    have hkl2 : k2 ≠ "length" := goodKey_ne_length_arr es k2 hgood2
    rcases hi : parseIdx k with _ | i
    · rw [goodKeyB, hi] at hgood
      simp at hgood
    · rcases hj : parseIdx k2 with _ | j
      · rw [goodKeyB, hj] at hgood2
        simp at hgood2
      · have hset : jsSet (.arr es) k v = .arr (setIdx es i v) := by
          simp [jsSet, hkl, hi]
        have hij : j ≠ i := by
          intro hh
          exact hsep i hi (by rw [hj, hh])
        rw [hset]
        have e1 : jsGet (.arr (setIdx es i v)) k2 = (setIdx es i v).get? j := by
          simp [jsGet, hkl2, hj]
        have e2 : jsGet (.arr es) k2 = es.get? j := by
          simp [jsGet, hkl2, hj]
        rw [e1, e2]
        exact setIdx_get_other es i j v hij
  | null => left; rfl
  | bool b => left; rfl
  | num n => left; rfl
  | str s2 => left; rfl

theorem jsGet_jsSet_keep (d : JVal) (k k2 : String) (v w : JVal)
    (hgood : goodKeyB d k = true) (hgood2 : goodKeyB d k2 = true)
    (hne : k ≠ k2) (hsep : ∀ i, parseIdx k = some i → parseIdx k2 ≠ some i)
    (hw : jsGet d k2 = some w) :
    jsGet (jsSet d k v) k2 = some w := by
  rcases jsGet_jsSet_other d k k2 v hgood hgood2 hne hsep with h | h
  · rw [h, hw]
  · rw [hw] at h
    exact Option.noConfusion h.1

theorem scheduleEmit_default (em : Emitter) (now : Nat)
    (hth : em.throttle = 0) (hdb : em.debounce = 0) (hpz : em.paused = false) :
    em.scheduleEmit now = { em with immediate := true, timer := none } := by
  simp [Emitter.scheduleEmit, Emitter.clearPending, hth, hdb, hpz]

theorem isPrimNN_not_container (v : JVal) (h : isPrimNN v = true) :
    v.isObjectOrArray = false := by
  cases v <;> simp_all [isPrimNN, JVal.isObjectOrArray]

theorem isPrimNN_not_arr (v : JVal) (h : isPrimNN v = true) :
    v.isArr = false := by
  cases v <;> simp_all [isPrimNN, JVal.isArr]

theorem jsNeqOpt_null_prim (v : JVal) (h : isPrimNN v = true) :
    jsNeqOpt (some .null) v = true := by
  cases v <;> simp_all [isPrimNN, jsNeqOpt, JVal.isObjectOrArray, scalarEq]

theorem goodKey_ne_length (d : JVal) (k : String) (hsh : d.isObjectOrArray = true)
    (h : goodKeyB d k = true) : k ≠ "length" := by
  cases d with
  | obj fs =>
    intro hk
    simp [goodKeyB, hk] at h
  | arr es => exact goodKey_ne_length_arr es k h
  | null => simp [JVal.isObjectOrArray] at hsh
  | bool b => simp [JVal.isObjectOrArray] at hsh
  | num n => simp [JVal.isObjectOrArray] at hsh
  | str s2 => simp [JVal.isObjectOrArray] at hsh

theorem applyMuts_cons (now : Nat) (st : WState) (m : Mut) (ms : List Mut) :
    applyMuts now st (m :: ms) = applyMuts now (applyMut now st m) ms := rfl

theorem foldl_oset_notmem (ws : List (String × JVal)) (df : JFields) (k : String)
    (h : k ∉ ws.map Prod.fst) :
    olookup (ws.foldl (fun fs kv => oset fs kv.1 kv.2) df) k = olookup df k := by
  induction ws generalizing df with
  | nil => rfl
  | cons kv rest ih =>
    rw [List.foldl_cons]
    rw [ih _ (fun hh => h (by simp [hh]))]
    exact olookup_oset_ne df kv.1 k kv.2 (fun hh => h (by simp [hh]))

theorem foldl_oset_mem (ws : List (String × JVal)) (df : JFields)
    (kv : String × JVal) (hmem : kv ∈ ws) (hnd : (ws.map Prod.fst).Nodup) :
    olookup (ws.foldl (fun fs kv => oset fs kv.1 kv.2) df) kv.1 = some kv.2 := by
  induction ws generalizing df with
  | nil => simp at hmem
  | cons hd rest ih =>
    rw [List.map_cons, List.nodup_cons] at hnd
    rcases List.mem_cons.mp hmem with h | h
    · subst h
      rw [List.foldl_cons, foldl_oset_notmem rest _ kv.1 hnd.1]
      exact olookup_oset_self df kv.1 kv.2
    · rw [List.foldl_cons]
      exact ih _ h hnd.2

/-- One default-options scalar write through the root proxy. -/
theorem c1_step (d0 : JVal) (df : JFields) (em : Emitter) (E : List EmissionRec)
    (k : String) (v : JVal)
    (hth : em.throttle = 0) (hdb : em.debounce = 0) (hpz : em.paused = false)
    (hsh : d0.isObjectOrArray = true)
    (hprim : isPrimNN v = true)
    (hnew : jsNeqOpt (jsGet d0 k) v = true)
    (hnolen : olookup df "length" = none) :
    applyMut 0 ⟨d0, .obj df, em, E⟩ (.set [] k v) =
      ⟨jsSet d0 k v, .obj (oset df k v),
       { em with immediate := true, timer := none }, E⟩ := by
  have hva : v.isArr = false := isPrimNN_not_arr v hprim
  have hvo : v.isObjectOrArray = false := isPrimNN_not_container v hprim
  have hlr : leafRecord (.obj df) k v = .obj (oset df k v) := by
    rw [leafRecord]
    rcases hi : parseIdx k with _ | i
    · rfl
    · have : dLengthVal (.obj df) = none := by
        simp [dLengthVal, hnolen]
      simp [this, dsetKey]
  simp only [applyMut, readPath]
  simp only [hsh, if_true, hva, hvo, Bool.and_false, Bool.false_and,
    Bool.and_true, Bool.false_eq_true, if_false, hnew, if_true]
  simp only [writePath, modifyDiffAt, hlr]
  rw [scheduleEmit_default em 0 hth hdb hpz]

/-- A synchronous sequence of default-options scalar writes through the
root proxy: the data tree accumulates the writes, the master diff holds
exactly the written keys, one immediate is pending, and nothing has been
delivered in between. -/
theorem c1_fold (ws : List (String × JVal)) (d0 : JVal) (df : JFields)
    (em : Emitter) (E : List EmissionRec)
    (hth : em.throttle = 0) (hdb : em.debounce = 0) (hpz : em.paused = false)
    (hsh : d0.isObjectOrArray = true)
    (hgood : ∀ kv ∈ ws, goodKeyB d0 kv.1 = true)
    (hprim : ∀ kv ∈ ws, isPrimNN kv.2 = true)
    (hsep : ws.Pairwise KeySep)
    (hnew : ∀ kv ∈ ws, jsNeqOpt (jsGet d0 kv.1) kv.2 = true)
    (hnolen : olookup df "length" = none) :
    applyMuts 0 ⟨d0, .obj df, em, E⟩ (ws.map (fun kv => Mut.set [] kv.1 kv.2)) =
      ⟨ws.foldl (fun d kv => jsSet d kv.1 kv.2) d0,
       .obj (ws.foldl (fun fs kv => oset fs kv.1 kv.2) df),
       (if ws.isEmpty then em else { em with immediate := true, timer := none }),
       E⟩ := by
  induction ws generalizing d0 df em with
  | nil => simp [applyMuts]
  | cons hd rest ih =>
    obtain ⟨k, v⟩ := hd
    rw [List.map_cons, applyMuts_cons,
      c1_step d0 df em E k v hth hdb hpz hsh (hprim (k, v) (by simp))
        (hnew (k, v) (by simp)) hnolen]
    have hpair := (List.pairwise_cons.mp hsep).1
    have hgk : goodKeyB d0 k = true := hgood (k, v) (by simp)
    have hkl : k ≠ "length" := goodKey_ne_length d0 k hsh hgk
    rw [ih (jsSet d0 k v) (oset df k v) { em with immediate := true, timer := none }
      hth hdb hpz
      (jsSet_isObjectOrArray d0 k v hsh)
      (fun kv hkv => by
        rw [goodKeyB_jsSet d0 k kv.1 v hsh]
        exact hgood kv (by simp [hkv]))
      (fun kv hkv => hprim kv (by simp [hkv]))
      (List.pairwise_cons.mp hsep).2
      (fun kv hkv => by
        have hs := hpair kv hkv
        rcases jsGet_jsSet_other d0 k kv.1 v hgk (hgood kv (by simp [hkv]))
          (Ne.symm (Ne.symm hs.1)) hs.2 with hcase | hcase
        · rw [hcase]
          exact hnew kv (by simp [hkv])
        · rw [hcase.2]
          exact jsNeqOpt_null_prim kv.2 (hprim kv (by simp [hkv])))
      (by rw [olookup_oset_ne df k "length" v (Ne.symm hkl)]; exact hnolen)]
    simp

theorem foldl_jsSet_keep (ws : List (String × JVal)) (d : JVal) (k : String)
    (w : JVal) (hsh : d.isObjectOrArray = true)
    (hgood : ∀ kv ∈ ws, goodKeyB d kv.1 = true)
    (hsep : ∀ kv ∈ ws, kv.1 ≠ k ∧ ∀ i, parseIdx kv.1 = some i → parseIdx k ≠ some i)
    (hgk : goodKeyB d k = true)
    (hw : jsGet d k = some w) :
    jsGet (ws.foldl (fun d kv => jsSet d kv.1 kv.2) d) k = some w := by
  induction ws generalizing d with
  | nil => exact hw
  | cons hd rest ih =>
    rw [List.foldl_cons]
    have hs := hsep hd (by simp)
    refine ih (jsSet d hd.1 hd.2) (jsSet_isObjectOrArray d hd.1 hd.2 hsh)
      (fun kv hkv => by
        rw [goodKeyB_jsSet d hd.1 kv.1 hd.2 hsh]
        exact hgood kv (by simp [hkv]))
      (fun kv hkv => hsep kv (by simp [hkv]))
      (by rw [goodKeyB_jsSet d hd.1 k hd.2 hsh]; exact hgk)
      (jsGet_jsSet_keep d hd.1 k hd.2 w (hgood hd (by simp)) hgk hs.1 hs.2 hw)

theorem foldl_jsSet_mem (ws : List (String × JVal)) (d : JVal)
    (kv : String × JVal) (hmem : kv ∈ ws) (hsh : d.isObjectOrArray = true)
    (hgood : ∀ kv' ∈ ws, goodKeyB d kv'.1 = true)
    (hsep : ws.Pairwise KeySep) :
    jsGet (ws.foldl (fun d kv => jsSet d kv.1 kv.2) d) kv.1 = some kv.2 := by
  induction ws generalizing d with
  | nil => simp at hmem
  | cons hd rest ih =>
    rw [List.foldl_cons]
    have hpair := (List.pairwise_cons.mp hsep).1
    rcases List.mem_cons.mp hmem with h | h
    · subst h
      refine foldl_jsSet_keep rest (jsSet d kv.1 kv.2) kv.1 kv.2
        (jsSet_isObjectOrArray d kv.1 kv.2 hsh)
        (fun kv' hkv' => by
          rw [goodKeyB_jsSet d kv.1 kv'.1 kv.2 hsh]
          exact hgood kv' (by simp [hkv']))
        (fun kv' hkv' => by
          have hs := hpair kv' hkv'
          refine ⟨Ne.symm hs.1, fun i hpi hpk => ?_⟩
          exact hs.2 i hpk hpi)
        (by rw [goodKeyB_jsSet d kv.1 kv.1 kv.2 hsh]; exact hgood kv (by simp))
        (jsGet_jsSet_self d kv.1 kv.2 (hgood kv (by simp)))
    · exact ih (jsSet d hd.1 hd.2) h
        (jsSet_isObjectOrArray d hd.1 hd.2 hsh)
        (fun kv' hkv' => by
          rw [goodKeyB_jsSet d hd.1 kv'.1 hd.2 hsh]
          exact hgood kv' (by simp [hkv']))
        (List.pairwise_cons.mp hsep).2

theorem olookup_some_ne_nil (fs : JFields) (k : String) (v : JVal)
    (h : olookup fs k = some v) : fs ≠ [] := by
  intro hnil
  rw [hnil] at h
  exact Option.noConfusion h

/-- C1 counterexample, two legs.  (i) On a watched `{a: {x: 1, y: 2}}` with
default options and a root listener, the single synchronous write of the new
value `{x: 9, y: 2}` to key `a` takes the merge path: exactly one delivery
occurs, but the delivered diff records `a` as `{x: 9}` — not the key's final
value `{x: 9, y: 2}`.  (ii) On a watched plain object `{}`, the two writes
`length = 2` and `"3" = 'x'` to distinct keys deliver `{3: 'x', length: 4}`
(the index-advance rewrites the recorded `length` even though the target is
not an array), while the final value of key `length` is `2`.  Both refute
"the diff delivered contains exactly the N changed keys with their final
values". -/
theorem c1_batching_counterexample :
    (flushImmediate 1 (applyMut 0
      (freshW (.obj [("a", .obj [("x", .num 1), ("y", .num 2)])]))
      (.set [] "a" (.obj [("x", .num 9), ("y", .num 2)])))).emissions =
      [⟨.obj [("a", .obj [("x", .num 9)])],
        [(0, .obj [("a", .obj [("x", .num 9)])])]⟩] ∧
    (flushImmediate 1 (applyMut 0
      (freshW (.obj [("a", .obj [("x", .num 1), ("y", .num 2)])]))
      (.set [] "a" (.obj [("x", .num 9), ("y", .num 2)])))).data =
      .obj [("a", .obj [("x", .num 9), ("y", .num 2)])] ∧
    olookup [("a", .obj [("x", .num 9)])] "a" ≠
      some (.obj [("x", .num 9), ("y", .num 2)]) ∧
    (flushImmediate 1 (applyMuts 0 (freshW (.obj []))
      [.set [] "length" (.num 2), .set [] "3" (.str "x")])).emissions =
      [⟨.obj [("3", .str "x"), ("length", .num 4)],
        [(0, .obj [("3", .str "x"), ("length", .num 4)])]⟩] ∧
    (flushImmediate 1 (applyMuts 0 (freshW (.obj []))
      [.set [] "length" (.num 2), .set [] "3" (.str "x")])).data =
      .obj [("3", .str "x"), ("length", .num 2)] := by
  refine ⟨rfl, rfl, ?_, rfl, rfl⟩
  simp [olookup]

/-- C1 (amended): on a watched root with default options (no throttle, no
debounce), passive listeners at least one of which is registered at the
root, every synchronous sequence of writes of new non-null primitive values
to distinct keys — keys other than `length` on an object root, index keys on
an array root — produces exactly one delivery once the pending immediate
fires: the consumed diff holds exactly the written keys, each at its final
value in the data tree, the full diff is delivered to every root listener,
and afterwards the accumulator is empty and no immediate or timer is
pending. -/
theorem c1_batching_scalar (ws : List (String × JVal)) (root : JVal)
    (ls : List Listener) (le : Nat)
    (hne : ws ≠ [])
    (hsh : root.isObjectOrArray = true)
    (hgood : ∀ kv ∈ ws, goodKeyB root kv.1 = true)
    (hprim : ∀ kv ∈ ws, isPrimNN kv.2 = true)
    (hsep : ws.Pairwise KeySep)
    (hnd : (ws.map Prod.fst).Nodup)
    (hnew : ∀ kv ∈ ws, jsNeqOpt (jsGet root kv.1) kv.2 = true)
    (hr : ∀ l ∈ ls, l.reaction = []) :
    (flushImmediate 1 (applyMuts 0
        ⟨root, .obj [], ⟨ls, false, none, 0, 0, le, false⟩, []⟩
        (ws.map (fun kv => Mut.set [] kv.1 kv.2)))).emissions =
      [⟨.obj (ws.foldl (fun fs kv => oset fs kv.1 kv.2) []),
        payloadsOf (.obj (ws.foldl (fun fs kv => oset fs kv.1 kv.2) [])) ls⟩] ∧
    (flushImmediate 1 (applyMuts 0
        ⟨root, .obj [], ⟨ls, false, none, 0, 0, le, false⟩, []⟩
        (ws.map (fun kv => Mut.set [] kv.1 kv.2)))).diff = .obj [] ∧
    (flushImmediate 1 (applyMuts 0
        ⟨root, .obj [], ⟨ls, false, none, 0, 0, le, false⟩, []⟩
        (ws.map (fun kv => Mut.set [] kv.1 kv.2)))).em.immediate = false ∧
    (flushImmediate 1 (applyMuts 0
        ⟨root, .obj [], ⟨ls, false, none, 0, 0, le, false⟩, []⟩
        (ws.map (fun kv => Mut.set [] kv.1 kv.2)))).em.timer = none ∧
    (∀ l ∈ ls, l.path = [] →
      (l.id, .obj (ws.foldl (fun fs kv => oset fs kv.1 kv.2) [])) ∈
        payloadsOf (.obj (ws.foldl (fun fs kv => oset fs kv.1 kv.2) [])) ls) ∧
    (∀ kv ∈ ws,
      olookup (ws.foldl (fun fs kv => oset fs kv.1 kv.2) []) kv.1 = some kv.2 ∧
      jsGet (flushImmediate 1 (applyMuts 0
        ⟨root, .obj [], ⟨ls, false, none, 0, 0, le, false⟩, []⟩
        (ws.map (fun kv => Mut.set [] kv.1 kv.2)))).data kv.1 = some kv.2) ∧
    (∀ k, k ∉ ws.map Prod.fst →
      olookup (ws.foldl (fun fs kv => oset fs kv.1 kv.2) []) k = none) := by
  have hfold := c1_fold ws root [] ⟨ls, false, none, 0, 0, le, false⟩ []
    rfl rfl rfl hsh hgood hprim hsep hnew rfl
  have hwsne : ws.isEmpty = false := by
    cases ws with
    | nil => exact absurd rfl hne
    | cons a b => rfl
  rw [hwsne] at hfold
  simp only [Bool.false_eq_true, if_false] at hfold
  obtain ⟨kv0, hkv0⟩ : ∃ kv, kv ∈ ws := by
    cases ws with
    | nil => exact absurd rfl hne
    | cons a b => exact ⟨a, by simp⟩
  have hDne : (ws.foldl (fun fs kv => oset fs kv.1 kv.2) []) ≠ [] :=
    olookup_some_ne_nil _ kv0.1 kv0.2 (foldl_oset_mem ws [] kv0 hkv0 hnd)
  have hpend : hasPendingChanges
      (.obj (ws.foldl (fun fs kv => oset fs kv.1 kv.2) [])) = true := by
    rw [hasPendingChanges]
    cases hD : ws.foldl (fun fs kv => oset fs kv.1 kv.2) [] with
    | nil => exact absurd hD hDne
    | cons a b => rfl
  have hflush : flushImmediate 1 (applyMuts 0
      ⟨root, .obj [], ⟨ls, false, none, 0, 0, le, false⟩, []⟩
      (ws.map (fun kv => Mut.set [] kv.1 kv.2))) =
      ⟨ws.foldl (fun d kv => jsSet d kv.1 kv.2) root, .obj [],
       ⟨ls, false, none, 0, 0, 1, false⟩,
       [⟨.obj (ws.foldl (fun fs kv => oset fs kv.1 kv.2) []),
         payloadsOf (.obj (ws.foldl (fun fs kv => oset fs kv.1 kv.2) [])) ls⟩]⟩ := by
    rw [hfold]
    rw [flushImmediate]
    simp only [if_pos]
    rw [emitStep]
    simp only [hpend, if_true]
    rw [emitFan_eq, invokedReactions_passive _ _ hr]
    simp [applyMuts]
  rw [hflush]
  refine ⟨rfl, rfl, rfl, rfl, ?_, ?_, ?_⟩
  · intro l hl hpath
    have hinv : invokeCond (filterDiffByPath
        (.obj (ws.foldl (fun fs kv => oset fs kv.1 kv.2) [])) l.path) = true := by
      rw [hpath]
      rw [show filterDiffByPath
        (.obj (ws.foldl (fun fs kv => oset fs kv.1 kv.2) [])) [] =
        .obj (ws.foldl (fun fs kv => oset fs kv.1 kv.2) []) from rfl]
      rw [invokeCond]
      simp only [JVal.jsTruthy, Bool.true_and, jsKeysCount]
      simp only [decide_eq_true_eq]
      cases hD : ws.foldl (fun fs kv => oset fs kv.1 kv.2) [] with
      | nil => exact absurd hD hDne
      | cons a b => simp
    have := mem_payloadsOf_of_invoke
      (.obj (ws.foldl (fun fs kv => oset fs kv.1 kv.2) [])) ls l hl hinv
    rw [hpath] at this
    exact this
  · intro kv hkv
    exact ⟨foldl_oset_mem ws [] kv hkv hnd,
      foldl_jsSet_mem ws root kv hkv hsh hgood hsep⟩
  · intro k hk
    rw [foldl_oset_notmem ws [] k hk]
    rfl

/-- Witness for C1 (amended): writes `a=10, b=20, c=30` on a fresh watched
`{a:1, b:2, c:3}` with one root listener deliver `{a:10, b:20, c:30}`
exactly once. -/
theorem c1_batching_scalar_witness :
    (flushImmediate 1 (applyMuts 0
        ⟨.obj [("a", .num 1), ("b", .num 2), ("c", .num 3)], .obj [],
         ⟨[⟨0, [], []⟩], false, none, 0, 0, 0, false⟩, []⟩
        ([("a", JVal.num 10), ("b", JVal.num 20), ("c", JVal.num 30)].map
          (fun kv => Mut.set [] kv.1 kv.2)))).emissions =
      [⟨.obj ([("a", JVal.num 10), ("b", JVal.num 20), ("c", JVal.num 30)].foldl
          (fun fs kv => oset fs kv.1 kv.2) []),
        payloadsOf (.obj ([("a", JVal.num 10), ("b", JVal.num 20), ("c", JVal.num 30)].foldl
          (fun fs kv => oset fs kv.1 kv.2) [])) [⟨0, [], []⟩]⟩] :=
  (c1_batching_scalar [("a", .num 10), ("b", .num 20), ("c", .num 30)]
    (.obj [("a", .num 1), ("b", .num 2), ("c", .num 3)]) [⟨0, [], []⟩] 0
    (by simp) rfl
    (by intro kv hkv; fin_cases hkv <;> rfl)
    (by intro kv hkv; fin_cases hkv <;> rfl)
    (by
      refine List.pairwise_cons.mpr ⟨?_, List.pairwise_cons.mpr ⟨?_, ?_⟩⟩
      · intro b hb
        fin_cases hb <;>
          exact ⟨by simp, by intro i h1 h2; simp [parseIdx, digitVal] at h1⟩
      · intro b hb
        fin_cases hb
        exact ⟨by simp, by intro i h1 h2; simp [parseIdx, digitVal] at h1⟩
      · simp)
    (by simp)
    (by intro kv hkv; fin_cases hkv <;> rfl)
    (by intro l hl; rw [List.mem_singleton] at hl; rw [hl])).1

/-! ## Key-order theory for the round-trip proof -/

theorem charLtB_trans {a b c : Char} (h1 : charLtB a b = true)
    (h2 : charLtB b c = true) : charLtB a c = true := by
  simp [charLtB] at *
  omega

theorem charLtB_conn {a b : Char} (h1 : charLtB a b = false)
    (h2 : charLtB b a = false) : a = b := by
  simp [charLtB, Char.toNat] at h1 h2
  exact Char.ext (UInt32.ext (by omega))

theorem keyLtB_trans : ∀ (a b c : List Char), keyLtB a b = true →
    keyLtB b c = true → keyLtB a c = true
  | [], [], _, h1, _ => by simp [keyLtB] at h1
  | [], _ :: _, [], _, h2 => by simp [keyLtB] at h2
  | [], _ :: _, _ :: _, _, _ => by simp [keyLtB]
  | _ :: _, [], _, h1, _ => by simp [keyLtB] at h1
  | _ :: _, _ :: _, [], _, h2 => by simp [keyLtB] at h2
  | a :: as, b :: bs, c :: cs, h1, h2 => by
    simp only [keyLtB] at h1 h2 ⊢
    cases hab : charLtB a b with
    | true =>
      cases hbc : charLtB b c with
      | true => simp [charLtB_trans hab hbc]
      | false =>
        cases hcb : charLtB c b with
        | true => simp [hbc, hcb] at h2
        | false =>
          have he : b = c := charLtB_conn hbc hcb
          subst he
          simp [hab]
    | false =>
      cases hba : charLtB b a with
      | true => simp [hab, hba] at h1
      | false =>
        have he : a = b := charLtB_conn hab hba
        subst he
        simp only [hab, if_false] at h1 h2 ⊢
        cases hac : charLtB a c with
        | true => simp
        | false =>
          cases hca : charLtB c a with
          | true => simp [hac, hca] at h2
          | false =>
            simp only [hac, hca, if_false] at h2 ⊢
            exact keyLtB_trans as bs cs h1 h2

theorem keyLtB_asymm : ∀ (a b : List Char), keyLtB a b = true →
    keyLtB b a = false
  | [], [], h => by simp [keyLtB] at h
  | [], _ :: _, _ => by simp [keyLtB]
  | _ :: _, [], h => by simp [keyLtB] at h
  | a :: as, b :: bs, h => by
    simp only [keyLtB] at h ⊢
    cases hab : charLtB a b with
    | true =>
      have hba : charLtB b a = false := by
        simp [charLtB] at hab ⊢
        omega
      simp [hab, hba]
    | false =>
      cases hba : charLtB b a with
      | true => simp [hab, hba] at h
      | false =>
        have he : a = b := charLtB_conn hab hba
        subst he
        simp only [hab, if_false] at h ⊢
        exact keyLtB_asymm as bs h

theorem keyLtB_conn : ∀ (a b : List Char), keyLtB a b = false →
    keyLtB b a = false → a = b
  | [], [], _, _ => rfl
  | [], _ :: _, h1, _ => by simp [keyLtB] at h1
  | _ :: _, [], _, h2 => by simp [keyLtB] at h2
  | a :: as, b :: bs, h1, h2 => by
    cases hab : charLtB a b with
    | true => simp [keyLtB, hab] at h1
    | false =>
      cases hba : charLtB b a with
      | true => simp [keyLtB, hba] at h2
      | false =>
        have he : a = b := charLtB_conn hab hba
        subst he
        simp only [keyLtB, hab, if_false] at h1 h2
        rw [keyLtB_conn as bs h1 h2]

theorem keyLt_trans {a b c : String} (h1 : keyLt a b = true)
    (h2 : keyLt b c = true) : keyLt a c = true :=
  keyLtB_trans a.data b.data c.data h1 h2

theorem keyLt_asymm {a b : String} (h : keyLt a b = true) :
    keyLt b a = false :=
  keyLtB_asymm a.data b.data h

theorem keyLt_conn {a b : String} (h1 : keyLt a b = false)
    (h2 : keyLt b a = false) : a = b := by
  cases a with
  | mk da =>
    cases b with
    | mk db =>
      rw [keyLtB_conn da db h1 h2]

theorem keyLt_total {a b : String} (h1 : keyLt a b = false) (h2 : a ≠ b) :
    keyLt b a = true := by
  cases hba : keyLt b a with
  | true => rfl
  | false => exact absurd (keyLt_conn h1 hba) h2

theorem sortedKeys_head_lookup_none (k : String) (v : JVal) (rest : JFields)
    (h : SortedKeys ((k, v) :: rest)) : olookup rest k = none := by
  rw [olookup_eq_none_iff]
  intro hmem
  rw [List.mem_map] at hmem
  obtain ⟨b, hb, hbk⟩ := hmem
  have hlt := (List.pairwise_cons.mp h).1 b hb
  rw [hbk, keyLt_irrefl] at hlt
  exact Bool.noConfusion hlt

theorem sortedKeys_head_lt (k : String) (v : JVal) (rest : JFields)
    (h : SortedKeys ((k, v) :: rest)) (j : String)
    (hj : j ∈ rest.map Prod.fst) : keyLt k j = true := by
  rw [List.mem_map] at hj
  obtain ⟨b, hb, hbk⟩ := hj
  have := (List.pairwise_cons.mp h).1 b hb
  rw [hbk] at this
  exact this

theorem sorted_ext : ∀ (a b : JFields), SortedKeys a → SortedKeys b →
    (∀ k, olookup a k = olookup b k) → a = b
  | [], [], _, _, _ => rfl
  | [], (k2, v2) :: b2, _, _, h => by
    have := h k2
    simp [olookup] at this
  | (k, v) :: a2, [], _, _, h => by
    have := h k
    simp [olookup] at this
  | (k, v) :: a2, (k2, v2) :: b2, hsa, hsb, h => by
    have hk : k = k2 := by
      by_contra hne
      have h1 := h k
      rw [olookup, if_pos rfl, olookup, if_neg hne] at h1
      have h2 := h k2
      rw [olookup, if_neg (fun e => hne e.symm), olookup, if_pos rfl] at h2
      have hlt1 : keyLt k2 k = true :=
        sortedKeys_head_lt k2 v2 b2 hsb k (olookup_mem_keys b2 k v h1.symm)
      have hlt2 : keyLt k k2 = true :=
        sortedKeys_head_lt k v a2 hsa k2 (olookup_mem_keys a2 k2 v2 h2)
      rw [keyLt_asymm hlt2] at hlt1
      exact Bool.noConfusion hlt1
    subst hk
    have hv : v = v2 := by
      have h1 := h k
      rw [olookup, if_pos rfl, olookup, if_pos rfl] at h1
      exact Option.some.inj h1
    subst hv
    have htail : ∀ j, olookup a2 j = olookup b2 j := by
      intro j
      by_cases hj : j = k
      · subst hj
        rw [sortedKeys_head_lookup_none j v a2 hsa,
          sortedKeys_head_lookup_none j v b2 hsb]
      · have h1 := h j
        rw [olookup, if_neg hj, olookup, if_neg hj] at h1
        exact h1
    rw [sorted_ext a2 b2 (List.pairwise_cons.mp hsa).2
      (List.pairwise_cons.mp hsb).2 htail]

theorem oset_keys_mem : ∀ (fs : JFields) (k : String) (v : JVal) (j : String),
    j ∈ (oset fs k v).map Prod.fst → j = k ∨ j ∈ fs.map Prod.fst
  | [], k, v, j, h => by
    simp [oset] at h
    exact Or.inl h
  | (k', v') :: rest, k, v, j, h => by
    by_cases h1 : keyLt k k' = true
    · rw [oset, if_pos h1] at h
      simp at h
      rcases h with h | h | h
      · exact Or.inl h
      · exact Or.inr (by simp [h])
      · exact Or.inr (by simp; exact Or.inr h)
    · by_cases h2 : k = k'
      · subst h2
        rw [oset, if_neg h1, if_pos rfl] at h
        simp at h
        rcases h with h | h
        · exact Or.inl h
        · exact Or.inr (by simp; exact Or.inr h)
      · rw [oset, if_neg h1, if_neg h2] at h
        simp at h
        rcases h with h | h
        · exact Or.inr (by simp [h])
        · rcases oset_keys_mem rest k v j (by simpa using h) with h3 | h3
          · exact Or.inl h3
          · exact Or.inr (by simp at h3 ⊢; exact Or.inr h3)

theorem oset_sorted : ∀ (fs : JFields) (k : String) (v : JVal),
    SortedKeys fs → SortedKeys (oset fs k v)
  | [], k, v, _ => by
    simp [oset, SortedKeys]
  | (k', v') :: rest, k, v, hs => by
    by_cases h1 : keyLt k k' = true
    · rw [oset, if_pos h1]
      refine List.pairwise_cons.mpr ⟨?_, hs⟩
      intro b hb
      rcases List.mem_cons.mp hb with hb | hb
      · rw [hb]
        exact h1
      · exact keyLt_trans h1 ((List.pairwise_cons.mp hs).1 b hb)
    · by_cases h2 : k = k'
      · subst h2
        rw [oset, if_neg h1, if_pos rfl]
        exact List.pairwise_cons.mpr ⟨(List.pairwise_cons.mp hs).1,
          (List.pairwise_cons.mp hs).2⟩
      · rw [oset, if_neg h1, if_neg h2]
        refine List.pairwise_cons.mpr ⟨?_, oset_sorted rest k v
          (List.pairwise_cons.mp hs).2⟩
        intro b hb
        rcases oset_keys_mem rest k v b.1
            (List.mem_map.mpr ⟨b, hb, rfl⟩) with h3 | h3
        · rw [h3]
          exact keyLt_total (by simpa using h1) h2
        · exact sortedKeys_head_lt k' v' rest hs b.1 h3

theorem odelete_sublist : ∀ (fs : JFields) (k : String),
    (odelete fs k).Sublist fs
  | [], _ => List.Sublist.refl []
  | (k', v') :: rest, k => by
    by_cases h : k' = k
    · rw [odelete, if_pos h]
      exact (odelete_sublist rest k).cons (k', v')
    · rw [odelete, if_neg h]
      exact (odelete_sublist rest k).cons₂ (k', v')

theorem odelete_sorted (fs : JFields) (k : String) (hs : SortedKeys fs) :
    SortedKeys (odelete fs k) :=
  List.Pairwise.sublist (odelete_sublist fs k) hs

theorem canonFieldsB_sorted : ∀ (fs : JFields),
    canonFieldsB fs = true → SortedKeys fs
  | [], _ => List.Pairwise.nil
  | (k, v) :: rest, h => by
    simp only [canonFieldsB, Bool.and_eq_true] at h
    have ih := canonFieldsB_sorted rest h.2
    refine List.pairwise_cons.mpr ⟨?_, ih⟩
    intro b hb
    match rest, hb, h, ih with
    | (k2, v2) :: rest2, hb, h, ih =>
      rcases List.mem_cons.mp hb with hb | hb
      · rw [hb]
        exact h.1.1
      · exact keyLt_trans h.1.1 ((List.pairwise_cons.mp ih).1 b hb)

theorem canonFieldsB_value (fs : JFields) (k : String) (v : JVal)
    (hl : olookup fs k = some v) (hc : canonFieldsB fs = true) :
    canonicalB v = true := by
  induction fs with
  | nil => exact Option.noConfusion hl
  | cons kv rest ih =>
    obtain ⟨k', v'⟩ := kv
    simp only [canonFieldsB, Bool.and_eq_true] at hc
    by_cases hk : k = k'
    · rw [olookup, if_pos hk] at hl
      rw [← Option.some.inj hl]
      exact hc.1.2
    · rw [olookup, if_neg hk] at hl
      exact ih hl hc.2

theorem objTreeFieldsB_value (fs : JFields) (k : String) (v : JVal)
    (hl : olookup fs k = some v) (hc : objTreeFieldsB fs = true) :
    objTreeB v = true := by
  induction fs with
  | nil => exact Option.noConfusion hl
  | cons kv rest ih =>
    obtain ⟨k', v'⟩ := kv
    rw [objTreeFieldsB, Bool.and_eq_true] at hc
    by_cases hk : k = k'
    · rw [olookup, if_pos hk] at hl
      rw [← Option.some.inj hl]
      exact hc.1
    · rw [olookup, if_neg hk] at hl
      exact ih hl hc.2

/-! ## Patch-mode characterization for the round-trip proof -/

theorem isNullB_of_prim (v : JVal) (h : isPrimNN v = true) :
    v.isNullB = false := by
  cases v <;> simp [isPrimNN, JVal.isNullB] at h ⊢

theorem cloneStripNulls_prim (v : JVal) (h : isPrimNN v = true) :
    cloneStripNulls v = v := by
  cases v <;> simp [isPrimNN, cloneStripNulls] at h ⊢

theorem scalarEq_eq (a b : JVal) (h : scalarEq a b = true) : a = b := by
  cases a <;> cases b <;> simp_all [scalarEq]

theorem jsNeqOpt_false (o : Option JVal) (v : JVal)
    (h : jsNeqOpt o v = false) : o = some v := by
  cases o with
  | none => exact Bool.noConfusion h
  | some c =>
    rw [jsNeqOpt] at h
    by_cases hc : (c.isObjectOrArray || v.isObjectOrArray) = true
    · rw [if_pos hc] at h
      exact Bool.noConfusion h
    · rw [if_neg hc] at h
      rw [scalarEq_eq c v (by simpa using h)]

theorem mem_olookup_sorted : ∀ (fs : JFields) (kv : String × JVal),
    SortedKeys fs → kv ∈ fs → olookup fs kv.1 = some kv.2
  | [], kv, _, h => absurd h (List.not_mem_nil kv)
  | (k', v') :: tl, kv, hs, h => by
    rcases List.mem_cons.mp h with he | hm
    · subst he
      simp [olookup]
    · have hne : kv.1 ≠ k' := by
        intro he
        have hlt := sortedKeys_head_lt k' v' tl hs kv.1
          (List.mem_map.mpr ⟨kv, hm, rfl⟩)
        rw [he, keyLt_irrefl] at hlt
        exact Bool.noConfusion hlt
      rw [olookup, if_neg hne]
      exact mem_olookup_sorted tl kv (List.pairwise_cons.mp hs).2 hm

theorem olookup_mem_pair : ∀ (fs : JFields) (k : String) (v : JVal),
    olookup fs k = some v → (k, v) ∈ fs
  | [], _, _, h => Option.noConfusion h
  | (k', v') :: tl, k, v, h => by
    by_cases hk : k = k'
    · subst hk
      rw [olookup, if_pos rfl] at h
      rw [← Option.some.inj h]
      exact List.mem_cons_self _ _
    · rw [olookup, if_neg hk] at h
      exact List.mem_cons_of_mem _ (olookup_mem_pair tl k v h)

theorem owGoFields_cons_null (pm : Bool) (k : String) (rest : JFields)
    (t : JVal) (path : List String) (dm : JVal) (hc sc : Bool) :
    owGoFields pm ((k, JVal.null) :: rest) t path dm hc sc =
      owGoFields pm rest (jsDelete t k) path dm hc sc := by
  rw [owGoFields_cons]
  rfl

theorem owGoFields_cons_merge (pm : Bool) (k : String) (dk : JFields)
    (rest : JFields) (t : JVal) (path : List String) (dm : JVal) (hc sc : Bool)
    (t0k : JFields) (hg : jsGet t k = some (JVal.obj t0k)) :
    owGoFields pm ((k, JVal.obj dk) :: rest) t path dm hc sc =
      owGoFields pm rest
        (jsSet t k (owCore pm (JVal.obj t0k) (JVal.obj dk) (path ++ [k]) dm).t)
        path (owCore pm (JVal.obj t0k) (JVal.obj dk) (path ++ [k]) dm).dm hc
        (sc || (owCore pm (JVal.obj t0k) (JVal.obj dk) (path ++ [k]) dm).sched) := by
  rw [owGoFields_cons, hg]
  rfl

theorem owGoFields_cons_prim_set (pm : Bool) (k : String) (sv : JVal)
    (rest : JFields) (t : JVal) (path : List String) (dm : JVal) (hc sc : Bool)
    (hpr : isPrimNN sv = true) (hneq : jsNeqOpt (jsGet t k) sv = true) :
    owGoFields pm ((k, sv) :: rest) t path dm hc sc =
      owGoFields pm rest (jsSet t k sv) path (dsetAt dm path k sv) true sc := by
  rw [owGoFields_cons, if_neg (by simp [isNullB_of_prim sv hpr]),
    if_neg (by simp [isPrimNN_not_container sv hpr]), if_pos hneq,
    cloneStripNulls_prim sv hpr]

theorem owGoFields_cons_prim_skip (pm : Bool) (k : String) (sv : JVal)
    (rest : JFields) (t : JVal) (path : List String) (dm : JVal) (hc sc : Bool)
    (hpr : isPrimNN sv = true) (hneq : jsNeqOpt (jsGet t k) sv = false) :
    owGoFields pm ((k, sv) :: rest) t path dm hc sc =
      owGoFields pm rest t path dm hc sc := by
  rw [owGoFields_cons, if_neg (by simp [isNullB_of_prim sv hpr]),
    if_neg (by simp [isPrimNN_not_container sv hpr]), if_neg (by simp [hneq])]

/-- The behaviour the fold lemma requires of one diff entry: a tombstone
removes the key, a primitive lands verbatim, and an object entry sits over
an object in the target and patches it to a known result. -/
def PatchEntrySpec (tff : JFields) (kv : String × JVal) (r : Option JVal) :
    Prop :=
  (kv.2 = JVal.null ∧ r = none) ∨
  (isPrimNN kv.2 = true ∧ r = some kv.2) ∨
  (∃ dk t0k tk, kv.2 = JVal.obj dk ∧
    olookup tff kv.1 = some (JVal.obj t0k) ∧ r = some (JVal.obj tk) ∧
    ∀ (path' : List String) (dm' : JVal),
      (owCore true (JVal.obj t0k) (JVal.obj dk) path' dm').t = JVal.obj tk)

theorem patchEntrySpec_transfer (tff tff2 : JFields) (kv : String × JVal)
    (r : Option JVal) (h : PatchEntrySpec tff kv r)
    (he : olookup tff2 kv.1 = olookup tff kv.1) : PatchEntrySpec tff2 kv r := by
  rcases h with h | h | ⟨dk, t0k, tk, h1, h2, h3, h4⟩
  · exact Or.inl h
  · exact Or.inr (Or.inl h)
  · exact Or.inr (Or.inr ⟨dk, t0k, tk, h1, by rw [he]; exact h2, h3, h4⟩)

theorem owGoFields_patch_build : ∀ (dfl tff : JFields) (path : List String)
    (dm : JVal) (hc sc : Bool) (res : String → Option JVal),
    SortedKeys dfl →
    (∀ kv ∈ dfl, PatchEntrySpec tff kv (res kv.1)) →
    SortedKeys tff →
    ∃ tf', (owGoFields true dfl (JVal.obj tff) path dm hc sc).t = JVal.obj tf' ∧
      SortedKeys tf' ∧
      (∀ j, j ∉ dfl.map Prod.fst → olookup tf' j = olookup tff j) ∧
      (∀ kv ∈ dfl, olookup tf' kv.1 = res kv.1)
  | [], tff, path, dm, hc, sc, res, _, _, hstff =>
    ⟨tff, rfl, hstff, fun _ _ => rfl,
      fun kv hkv => absurd hkv (List.not_mem_nil kv)⟩
  | (k, sv) :: rest, tff, path, dm, hc, sc, res, hsd, hres, hstff => by
    have hne : ∀ kv, kv ∈ rest → kv.1 ≠ k := by
      intro kv hkv he
      have hlt := sortedKeys_head_lt k sv rest hsd kv.1
        (List.mem_map.mpr ⟨kv, hkv, rfl⟩)
      rw [he, keyLt_irrefl] at hlt
      exact Bool.noConfusion hlt
    have hknotinrest : k ∉ rest.map Prod.fst := by
      intro hmem
      rcases List.mem_map.mp hmem with ⟨kv, hkv, he⟩
      exact hne kv hkv he
    have hsrest : SortedKeys rest := (List.pairwise_cons.mp hsd).2
    rcases hres (k, sv) (List.mem_cons_self _ _) with ⟨hnl, hrk⟩ | ⟨hpr, hrk⟩ |
      ⟨dk, t0k, tk, hsv, hlk, hrk, hrc⟩
    · -- tombstone entry: the key is deleted
      have hnl2 : sv = JVal.null := hnl
      have hrk2 : res k = none := hrk
      subst hnl2
      rw [owGoFields_cons_null]
      have hdel : jsDelete (JVal.obj tff) k = JVal.obj (odelete tff k) := rfl
      rw [hdel]
      have hres2 : ∀ kv ∈ rest, PatchEntrySpec (odelete tff k) kv (res kv.1) := by
        intro kv hkv
        refine patchEntrySpec_transfer tff _ kv _
          (hres kv (List.mem_cons_of_mem _ hkv)) ?_
        rw [olookup_odelete, if_neg (hne kv hkv)]
      obtain ⟨tf', h1, h2, h3, h4⟩ :=
        owGoFields_patch_build rest (odelete tff k) path dm hc sc res hsrest
          hres2 (odelete_sorted tff k hstff)
      refine ⟨tf', h1, h2, ?_, ?_⟩
      · intro j hj
        rw [List.map_cons, List.mem_cons] at hj
        push_neg at hj
        rw [h3 j hj.2, olookup_odelete, if_neg hj.1]
      · intro kv hkv
        rcases List.mem_cons.mp hkv with he | hkv2
        · subst he
          show olookup tf' k = res k
          rw [h3 k hknotinrest, olookup_odelete, if_pos rfl, hrk2]
        · exact h4 kv hkv2
    · -- primitive entry: the value lands verbatim
      have hpr2 : isPrimNN sv = true := hpr
      have hrk2 : res k = some sv := hrk
      cases hneq : jsNeqOpt (jsGet (JVal.obj tff) k) sv with
      | true =>
        rw [owGoFields_cons_prim_set true k sv rest (JVal.obj tff) path dm hc sc
          hpr2 hneq]
        have hset : jsSet (JVal.obj tff) k sv = JVal.obj (oset tff k sv) := rfl
        rw [hset]
        have hres2 : ∀ kv ∈ rest,
            PatchEntrySpec (oset tff k sv) kv (res kv.1) := by
          intro kv hkv
          refine patchEntrySpec_transfer tff _ kv _
            (hres kv (List.mem_cons_of_mem _ hkv)) ?_
          exact olookup_oset_ne tff k kv.1 sv (hne kv hkv)
        obtain ⟨tf', h1, h2, h3, h4⟩ :=
          owGoFields_patch_build rest (oset tff k sv) path
            (dsetAt dm path k sv) true sc res hsrest hres2
            (oset_sorted tff k sv hstff)
        refine ⟨tf', h1, h2, ?_, ?_⟩
        · intro j hj
          rw [List.map_cons, List.mem_cons] at hj
          push_neg at hj
          rw [h3 j hj.2, olookup_oset_ne tff k j sv hj.1]
        · intro kv hkv
          rcases List.mem_cons.mp hkv with he | hkv2
          · subst he
            show olookup tf' k = res k
            rw [h3 k hknotinrest, olookup_oset_self, hrk2]
          · exact h4 kv hkv2
      | false =>
        rw [owGoFields_cons_prim_skip true k sv rest (JVal.obj tff) path dm hc sc
          hpr2 hneq]
        obtain ⟨tf', h1, h2, h3, h4⟩ :=
          owGoFields_patch_build rest tff path dm hc sc res hsrest
            (fun kv hkv => hres kv (List.mem_cons_of_mem _ hkv)) hstff
        refine ⟨tf', h1, h2, ?_, ?_⟩
        · intro j hj
          rw [List.map_cons, List.mem_cons] at hj
          push_neg at hj
          exact h3 j hj.2
        · intro kv hkv
          rcases List.mem_cons.mp hkv with he | hkv2
          · subst he
            show olookup tf' k = res k
            have hcur : olookup tff k = some sv := jsNeqOpt_false _ sv hneq
            rw [h3 k hknotinrest, hcur, hrk2]
          · exact h4 kv hkv2
    · -- object entry: the target sub-object is patched recursively
      have hsv2 : sv = JVal.obj dk := hsv
      have hlk2 : olookup tff k = some (JVal.obj t0k) := hlk
      have hrk2 : res k = some (JVal.obj tk) := hrk
      subst hsv2
      rw [owGoFields_cons_merge true k dk rest (JVal.obj tff) path dm hc sc t0k
        hlk2, hrc (path ++ [k]) dm]
      have hset : jsSet (JVal.obj tff) k (JVal.obj tk) =
          JVal.obj (oset tff k (JVal.obj tk)) := rfl
      rw [hset]
      have hres2 : ∀ kv ∈ rest,
          PatchEntrySpec (oset tff k (JVal.obj tk)) kv (res kv.1) := by
        intro kv hkv
        refine patchEntrySpec_transfer tff _ kv _
          (hres kv (List.mem_cons_of_mem _ hkv)) ?_
        exact olookup_oset_ne tff k kv.1 (JVal.obj tk) (hne kv hkv)
      obtain ⟨tf', h1, h2, h3, h4⟩ :=
        owGoFields_patch_build rest (oset tff k (JVal.obj tk)) path
          (owCore true (JVal.obj t0k) (JVal.obj dk) (path ++ [k]) dm).dm hc
          (sc || (owCore true (JVal.obj t0k) (JVal.obj dk) (path ++ [k]) dm).sched)
          res hsrest hres2 (oset_sorted tff k (JVal.obj tk) hstff)
      refine ⟨tf', h1, h2, ?_, ?_⟩
      · intro j hj
        rw [List.map_cons, List.mem_cons] at hj
        push_neg at hj
        rw [h3 j hj.2, olookup_oset_ne tff k j (JVal.obj tk) hj.1]
      · intro kv hkv
        rcases List.mem_cons.mp hkv with he | hkv2
        · subst he
          show olookup tf' k = res k
          rw [h3 k hknotinrest, olookup_oset_self, hrk2]
        · exact h4 kv hkv2

theorem patch_of_sim (t0f df tf : JFields) (hsim : Sim t0f df tf) :
    ∀ (path : List String) (dm : JVal),
      (owCore true (JVal.obj t0f) (JVal.obj df) path dm).t = JVal.obj tf := by
  induction hsim with
  | mk t0f df tf hs0 hsd hst hlen hnone hnull hprim hobj harr hrec ih =>
    intro path dm
    rw [owCore_obj, owFinish_true_t]
    have hres : ∀ kv ∈ df, PatchEntrySpec t0f kv (olookup tf kv.1) := by
      intro kv hkv
      have hdk : olookup df kv.1 = some kv.2 := mem_olookup_sorted df kv hsd hkv
      obtain ⟨k, v⟩ := kv
      cases v with
      | null => exact Or.inl ⟨rfl, hnull k hdk⟩
      | bool b => exact Or.inr (Or.inl ⟨rfl, hprim k (JVal.bool b) hdk rfl⟩)
      | num n => exact Or.inr (Or.inl ⟨rfl, hprim k (JVal.num n) hdk rfl⟩)
      | str s => exact Or.inr (Or.inl ⟨rfl, hprim k (JVal.str s) hdk rfl⟩)
      | arr es => exact (harr k es hdk).elim
      | obj dk =>
        obtain ⟨t0k, tk, h0, ht⟩ := hobj k dk hdk
        exact Or.inr (Or.inr ⟨dk, t0k, tk, rfl, h0, ht,
          fun path' dm' => ih k dk t0k tk hdk h0 ht path' dm'⟩)
    obtain ⟨tf', h1, h2, h3, h4⟩ :=
      owGoFields_patch_build df t0f path dm false false (fun j => olookup tf j)
        hsd hres hs0
    rw [h1]
    have he : tf' = tf := by
      refine sorted_ext tf' tf h2 hst ?_
      intro j
      cases hdj : olookup df j with
      | none =>
        rw [h3 j ((olookup_eq_none_iff df j).mp hdj)]
        exact (hnone j hdj).symm
      | some v =>
        exact h4 (j, v) (olookup_mem_pair df j v hdj)
    rw [he]

/-! ## Simulation invariant: construction and preservation -/

theorem sim_refl_empty (fs : JFields) (hs : SortedKeys fs) : Sim fs [] fs :=
  Sim.mk fs [] fs hs List.Pairwise.nil hs
    (fun _ h => Option.noConfusion h)
    (fun _ _ => rfl)
    (fun _ h => Option.noConfusion h)
    (fun _ _ h _ => Option.noConfusion h)
    (fun _ _ h => Option.noConfusion h)
    (fun _ _ h => Option.noConfusion h)
    (fun _ _ _ _ h _ _ => Option.noConfusion h)

theorem readPath_container (c : JVal) (rest : List String) (t : JVal)
    (h : readPath c rest = some t) (ht : t.isObjectOrArray = true) :
    c.isObjectOrArray = true := by
  cases rest with
  | nil =>
    rw [← Option.some.inj h] at ht
    exact ht
  | cons s' r' =>
    rw [readPath] at h
    cases hg : jsGet c s' with
    | none =>
      rw [hg] at h
      exact Option.noConfusion h
    | some c2 =>
      cases c with
      | obj fs => rfl
      | arr es => rfl
      | null => simp [jsGet] at hg
      | bool b => simp [jsGet] at hg
      | num n => simp [jsGet] at hg
      | str s => simp [jsGet] at hg

theorem objTree_container_obj (c : JVal) (ht : objTreeB c = true)
    (hc : c.isObjectOrArray = true) :
    ∃ cfs, c = JVal.obj cfs ∧ objTreeFieldsB cfs = true := by
  cases c with
  | obj fs => exact ⟨fs, rfl, ht⟩
  | arr es => exact Bool.noConfusion ht
  | null => exact Bool.noConfusion hc
  | bool b => exact Bool.noConfusion hc
  | num n => exact Bool.noConfusion hc
  | str s => exact Bool.noConfusion hc

theorem leafRecord_nolen (df : JFields) (k : String) (v : JVal)
    (hlen : ∀ n : Int, olookup df "length" ≠ some (JVal.num n)) :
    leafRecord (JVal.obj df) k v = JVal.obj (oset df k v) := by
  have hd : dLengthVal (JVal.obj df) = none := by
    rw [dLengthVal]
    cases hl : olookup df "length" with
    | none => rfl
    | some w =>
      cases w with
      | num n => exact absurd hl (hlen n)
      | null => rfl
      | bool b => rfl
      | str s => rfl
      | obj fs => rfl
      | arr es => rfl
  cases hpk : parseIdx k with
  | none => simp [leafRecord, hpk, dsetKey]
  | some i => simp [leafRecord, hpk, hd, dsetKey]

theorem readPath_obj_cons (tf : JFields) (s : String) (rest : List String)
    (c : JVal) (hcs : olookup tf s = some c) :
    readPath (JVal.obj tf) (s :: rest) = readPath c rest := by
  rw [readPath]
  simp [jsGet, hcs]

theorem readPath_obj_cons_none (tf : JFields) (s : String)
    (rest : List String) (hcs : olookup tf s = none) :
    readPath (JVal.obj tf) (s :: rest) = none := by
  rw [readPath]
  simp [jsGet, hcs]

theorem writePath_obj_cons (tf : JFields) (s : String) (rest : List String)
    (nv c : JVal) (hcs : olookup tf s = some c) :
    writePath (JVal.obj tf) (s :: rest) nv =
      JVal.obj (oset tf s (writePath c rest nv)) := by
  rw [writePath]
  simp [jsGet, jsSet, hcs]

theorem modifyDiffAt_obj_cons_none (df : JFields) (s : String)
    (rest : List String) (f : JVal → JVal) (hds : olookup df s = none) :
    modifyDiffAt (JVal.obj df) (s :: rest) f =
      JVal.obj (oset df s (modifyDiffAt (JVal.obj []) rest f)) := by
  rw [modifyDiffAt]
  simp [jsGet, jsSet, JVal.isObjectOrArray, hds]

theorem modifyDiffAt_obj_cons_obj (df : JFields) (s : String)
    (rest : List String) (f : JVal → JVal) (dks : JFields)
    (hds : olookup df s = some (JVal.obj dks)) :
    modifyDiffAt (JVal.obj df) (s :: rest) f =
      JVal.obj (oset df s (modifyDiffAt (JVal.obj dks) rest f)) := by
  rw [modifyDiffAt]
  simp [jsGet, jsSet, JVal.isObjectOrArray, JVal.jsTruthy, hds]

theorem sim_base_set (t0f df tf : JFields) (k : String) (v : JVal)
    (hsim : Sim t0f df tf) (hp : isPrimNN v = true) (hkl : k ≠ "length") :
    Sim t0f (oset df k v) (oset tf k v) := by
  rcases hsim with ⟨t0x, dfx, tfx, hs0, hsd, hst, hlen, hnone, hnull, hprim, hobj, harr, hrec⟩
  refine Sim.mk _ _ _ hs0 (oset_sorted df k v hsd) (oset_sorted tf k v hst)
    ?_ ?_ ?_ ?_ ?_ ?_ ?_
  · intro n hcon
    rw [olookup_oset_ne df k "length" v (Ne.symm hkl)] at hcon
    exact hlen n hcon
  · intro j hj
    by_cases hjk : j = k
    · subst hjk
      rw [olookup_oset_self] at hj
      exact Option.noConfusion hj
    · rw [olookup_oset_ne df k j v hjk] at hj
      rw [olookup_oset_ne tf k j v hjk]
      exact hnone j hj
  · intro j hj
    by_cases hjk : j = k
    · subst hjk
      rw [olookup_oset_self] at hj
      rw [Option.some.inj hj] at hp
      exact Bool.noConfusion hp
    · rw [olookup_oset_ne df k j v hjk] at hj
      rw [olookup_oset_ne tf k j v hjk]
      exact hnull j hj
  · intro j w hj hw
    by_cases hjk : j = k
    · subst hjk
      rw [olookup_oset_self] at hj ⊢
      exact hj
    · rw [olookup_oset_ne df k j v hjk] at hj
      rw [olookup_oset_ne tf k j v hjk]
      exact hprim j w hj hw
  · intro j dk hj
    by_cases hjk : j = k
    · subst hjk
      rw [olookup_oset_self] at hj
      rw [Option.some.inj hj] at hp
      exact Bool.noConfusion hp
    · rw [olookup_oset_ne df k j v hjk] at hj
      obtain ⟨t0k, tk, h1, h2⟩ := hobj j dk hj
      exact ⟨t0k, tk, h1, by rw [olookup_oset_ne tf k j v hjk]; exact h2⟩
  · intro j es hj
    by_cases hjk : j = k
    · subst hjk
      rw [olookup_oset_self] at hj
      rw [Option.some.inj hj] at hp
      exact Bool.noConfusion hp
    · rw [olookup_oset_ne df k j v hjk] at hj
      exact harr j es hj
  · intro j dk t0k tk hj h0 ht
    by_cases hjk : j = k
    · subst hjk
      rw [olookup_oset_self] at hj
      rw [Option.some.inj hj] at hp
      exact Bool.noConfusion hp
    · rw [olookup_oset_ne df k j v hjk] at hj
      rw [olookup_oset_ne tf k j v hjk] at ht
      exact hrec j dk t0k tk hj h0 ht

theorem sim_base_del (t0f df tf : JFields) (k : String)
    (hsim : Sim t0f df tf) : Sim t0f (oset df k JVal.null) (odelete tf k) := by
  rcases hsim with ⟨t0x, dfx, tfx, hs0, hsd, hst, hlen, hnone, hnull, hprim, hobj, harr, hrec⟩
  refine Sim.mk _ _ _ hs0 (oset_sorted df k JVal.null hsd)
    (odelete_sorted tf k hst) ?_ ?_ ?_ ?_ ?_ ?_ ?_
  · intro n hcon
    by_cases hkl : ("length" : String) = k
    · rw [← hkl, olookup_oset_self] at hcon
      exact JVal.noConfusion (Option.some.inj hcon)
    · rw [olookup_oset_ne df k "length" JVal.null hkl] at hcon
      exact hlen n hcon
  · intro j hj
    by_cases hjk : j = k
    · subst hjk
      rw [olookup_oset_self] at hj
      exact Option.noConfusion hj
    · rw [olookup_oset_ne df k j JVal.null hjk] at hj
      rw [olookup_odelete, if_neg hjk]
      exact hnone j hj
  · intro j hj
    by_cases hjk : j = k
    · subst hjk
      rw [olookup_odelete, if_pos rfl]
    · rw [olookup_oset_ne df k j JVal.null hjk] at hj
      rw [olookup_odelete, if_neg hjk]
      exact hnull j hj
  · intro j w hj hw
    by_cases hjk : j = k
    · subst hjk
      rw [olookup_oset_self] at hj
      rw [← Option.some.inj hj] at hw
      exact Bool.noConfusion hw
    · rw [olookup_oset_ne df k j JVal.null hjk] at hj
      rw [olookup_odelete, if_neg hjk]
      exact hprim j w hj hw
  · intro j dk hj
    by_cases hjk : j = k
    · subst hjk
      rw [olookup_oset_self] at hj
      exact JVal.noConfusion (Option.some.inj hj)
    · rw [olookup_oset_ne df k j JVal.null hjk] at hj
      obtain ⟨t0k, tk, h1, h2⟩ := hobj j dk hj
      exact ⟨t0k, tk, h1, by rw [olookup_odelete, if_neg hjk]; exact h2⟩
  · intro j es hj
    by_cases hjk : j = k
    · subst hjk
      rw [olookup_oset_self] at hj
      exact JVal.noConfusion (Option.some.inj hj)
    · rw [olookup_oset_ne df k j JVal.null hjk] at hj
      exact harr j es hj
  · intro j dk t0k tk hj h0 ht
    by_cases hjk : j = k
    · subst hjk
      rw [olookup_oset_self] at hj
      exact JVal.noConfusion (Option.some.inj hj)
    · rw [olookup_oset_ne df k j JVal.null hjk] at hj
      rw [olookup_odelete, if_neg hjk] at ht
      exact hrec j dk t0k tk hj h0 ht

theorem sim_step_build (t0f df tf : JFields) (s : String)
    (t0s dfc tfc : JFields) (hsim : Sim t0f df tf)
    (h0s : olookup t0f s = some (JVal.obj t0s)) (hsimc : Sim t0s dfc tfc) :
    Sim t0f (oset df s (JVal.obj dfc)) (oset tf s (JVal.obj tfc)) := by
  rcases hsim with ⟨t0x, dfx, tfx, hs0, hsd, hst, hlen, hnone, hnull, hprim, hobj, harr, hrec⟩
  refine Sim.mk _ _ _ hs0 (oset_sorted df s (JVal.obj dfc) hsd)
    (oset_sorted tf s (JVal.obj tfc) hst) ?_ ?_ ?_ ?_ ?_ ?_ ?_
  · intro n hcon
    by_cases hkl : ("length" : String) = s
    · rw [← hkl, olookup_oset_self] at hcon
      exact JVal.noConfusion (Option.some.inj hcon)
    · rw [olookup_oset_ne df s "length" (JVal.obj dfc) hkl] at hcon
      exact hlen n hcon
  · intro j hj
    by_cases hjk : j = s
    · subst hjk
      rw [olookup_oset_self] at hj
      exact Option.noConfusion hj
    · rw [olookup_oset_ne df s j (JVal.obj dfc) hjk] at hj
      rw [olookup_oset_ne tf s j (JVal.obj tfc) hjk]
      exact hnone j hj
  · intro j hj
    by_cases hjk : j = s
    · subst hjk
      rw [olookup_oset_self] at hj
      exact JVal.noConfusion (Option.some.inj hj)
    · rw [olookup_oset_ne df s j (JVal.obj dfc) hjk] at hj
      rw [olookup_oset_ne tf s j (JVal.obj tfc) hjk]
      exact hnull j hj
  · intro j w hj hw
    by_cases hjk : j = s
    · subst hjk
      rw [olookup_oset_self] at hj
      rw [← Option.some.inj hj] at hw
      exact Bool.noConfusion hw
    · rw [olookup_oset_ne df s j (JVal.obj dfc) hjk] at hj
      rw [olookup_oset_ne tf s j (JVal.obj tfc) hjk]
      exact hprim j w hj hw
  · intro j dk hj
    by_cases hjk : j = s
    · subst hjk
      exact ⟨t0s, tfc, h0s, by rw [olookup_oset_self]⟩
    · rw [olookup_oset_ne df s j (JVal.obj dfc) hjk] at hj
      obtain ⟨t0k, tk, h1, h2⟩ := hobj j dk hj
      exact ⟨t0k, tk, h1, by rw [olookup_oset_ne tf s j (JVal.obj tfc) hjk]; exact h2⟩
  · intro j es hj
    by_cases hjk : j = s
    · subst hjk
      rw [olookup_oset_self] at hj
      exact JVal.noConfusion (Option.some.inj hj)
    · rw [olookup_oset_ne df s j (JVal.obj dfc) hjk] at hj
      exact harr j es hj
  · intro j dk t0k tk hj h0 ht
    by_cases hjk : j = s
    · subst hjk
      rw [olookup_oset_self] at hj
      rw [olookup_oset_self] at ht
      rw [← JVal.obj.inj (Option.some.inj hj),
        ← JVal.obj.inj (Option.some.inj ht),
        ← JVal.obj.inj (Option.some.inj (h0s.symm.trans h0))]
      exact hsimc
    · rw [olookup_oset_ne df s j (JVal.obj dfc) hjk] at hj
      rw [olookup_oset_ne tf s j (JVal.obj tfc) hjk] at ht
      exact hrec j dk t0k tk hj h0 ht

theorem sim_node_set : ∀ (p : List String) (t0f df tf : JFields) (k : String)
    (v : JVal), Sim t0f df tf → canonFieldsB t0f = true →
    objTreeFieldsB t0f = true → isPrimNN v = true → k ≠ "length" →
    ∀ t, readPath (JVal.obj tf) p = some t → t.isObjectOrArray = true →
    ∃ df' tf',
      writePath (JVal.obj tf) p (jsSet t k v) = JVal.obj tf' ∧
      modifyDiffAt (JVal.obj df) p (fun dv => leafRecord dv k v) =
        JVal.obj df' ∧
      Sim t0f df' tf'
  | [], t0f, df, tf, k, v, hsim, hc0, ht0, hv, hkl, t, hread, htc => by
    have hteq : JVal.obj tf = t := Option.some.inj hread
    subst hteq
    rcases hsim with ⟨t0x, dfx, tfx, hs0, hsd, hst, hlen, hnone, hnull, hprim,
      hobj, harr, hrec⟩
    have hsim2 : Sim t0f df tf :=
      Sim.mk _ _ _ hs0 hsd hst hlen hnone hnull hprim hobj harr hrec
    exact ⟨oset df k v, oset tf k v, rfl, leafRecord_nolen df k v hlen,
      sim_base_set t0f df tf k v hsim2 hv hkl⟩
  | s :: rest, t0f, df, tf, k, v, hsim, hc0, ht0, hv, hkl, t, hread, htc => by
    rcases hsim with ⟨t0x, dfx, tfx, hs0, hsd, hst, hlen, hnone, hnull, hprim,
      hobj, harr, hrec⟩
    have hsim2 : Sim t0f df tf :=
      Sim.mk _ _ _ hs0 hsd hst hlen hnone hnull hprim hobj harr hrec
    cases hcs : olookup tf s with
    | none =>
      rw [readPath_obj_cons_none tf s rest hcs] at hread
      exact Option.noConfusion hread
    | some c =>
      rw [readPath_obj_cons tf s rest c hcs] at hread
      have hcc : c.isObjectOrArray = true := readPath_container c rest t hread htc
      cases hds : olookup df s with
      | none =>
        have h0c : olookup t0f s = some c := by
          rw [← hnone s hds]
          exact hcs
        obtain ⟨cfs, hce, hctree⟩ := objTree_container_obj c
          (objTreeFieldsB_value t0f s c h0c ht0) hcc
        subst hce
        have hccanon : canonFieldsB cfs = true :=
          canonFieldsB_value t0f s (JVal.obj cfs) h0c hc0
        obtain ⟨dfc, tfc, hw, hm, hsimc⟩ :=
          sim_node_set rest cfs [] cfs k v
            (sim_refl_empty cfs (canonFieldsB_sorted cfs hccanon))
            hccanon hctree hv hkl t hread htc
        refine ⟨oset df s (JVal.obj dfc), oset tf s (JVal.obj tfc), ?_, ?_, ?_⟩
        · rw [writePath_obj_cons tf s rest _ _ hcs, hw]
        · rw [modifyDiffAt_obj_cons_none df s rest _ hds, hm]
        · exact sim_step_build t0f df tf s cfs dfc tfc hsim2 h0c hsimc
      | some dv =>
        cases dv with
        | null =>
          rw [hnull s hds] at hcs
          exact Option.noConfusion hcs
        | bool b =>
          rw [hprim s (JVal.bool b) hds rfl] at hcs
          rw [← Option.some.inj hcs] at hcc
          exact Bool.noConfusion hcc
        | num n =>
          rw [hprim s (JVal.num n) hds rfl] at hcs
          rw [← Option.some.inj hcs] at hcc
          exact Bool.noConfusion hcc
        | str ss =>
          rw [hprim s (JVal.str ss) hds rfl] at hcs
          rw [← Option.some.inj hcs] at hcc
          exact Bool.noConfusion hcc
        | arr es => exact (harr s es hds).elim
        | obj dks =>
          obtain ⟨t0s, ts, h0s, hts⟩ := hobj s dks hds
          have he : c = JVal.obj ts := Option.some.inj (hcs.symm.trans hts)
          subst he
          have hsimchild : Sim t0s dks ts := hrec s dks t0s ts hds h0s hts
          have hc0s : canonFieldsB t0s = true :=
            canonFieldsB_value t0f s (JVal.obj t0s) h0s hc0
          have ht0s : objTreeFieldsB t0s = true :=
            objTreeFieldsB_value t0f s (JVal.obj t0s) h0s ht0
          obtain ⟨dfc, tfc, hw, hm, hsimc⟩ :=
            sim_node_set rest t0s dks ts k v hsimchild hc0s ht0s hv hkl
              t hread htc
          refine ⟨oset df s (JVal.obj dfc), oset tf s (JVal.obj tfc), ?_, ?_, ?_⟩
          · rw [writePath_obj_cons tf s rest _ _ hcs, hw]
          · rw [modifyDiffAt_obj_cons_obj df s rest _ dks hds, hm]
          · exact sim_step_build t0f df tf s t0s dfc tfc hsim2 h0s hsimc

theorem sim_node_del : ∀ (p : List String) (t0f df tf : JFields) (k : String),
    Sim t0f df tf → canonFieldsB t0f = true → objTreeFieldsB t0f = true →
    ∀ t, readPath (JVal.obj tf) p = some t → t.isObjectOrArray = true →
    ∃ df' tf',
      writePath (JVal.obj tf) p (jsDelete t k) = JVal.obj tf' ∧
      modifyDiffAt (JVal.obj df) p (fun dv => dsetKey dv k JVal.null) =
        JVal.obj df' ∧
      Sim t0f df' tf'
  | [], t0f, df, tf, k, hsim, hc0, ht0, t, hread, htc => by
    have hteq : JVal.obj tf = t := Option.some.inj hread
    subst hteq
    exact ⟨oset df k JVal.null, odelete tf k, rfl, rfl,
      sim_base_del t0f df tf k hsim⟩
  | s :: rest, t0f, df, tf, k, hsim, hc0, ht0, t, hread, htc => by
    rcases hsim with ⟨t0x, dfx, tfx, hs0, hsd, hst, hlen, hnone, hnull, hprim,
      hobj, harr, hrec⟩
    have hsim2 : Sim t0f df tf :=
      Sim.mk _ _ _ hs0 hsd hst hlen hnone hnull hprim hobj harr hrec
    cases hcs : olookup tf s with
    | none =>
      rw [readPath_obj_cons_none tf s rest hcs] at hread
      exact Option.noConfusion hread
    | some c =>
      rw [readPath_obj_cons tf s rest c hcs] at hread
      have hcc : c.isObjectOrArray = true := readPath_container c rest t hread htc
      cases hds : olookup df s with
      | none =>
        have h0c : olookup t0f s = some c := by
          rw [← hnone s hds]
          exact hcs
        obtain ⟨cfs, hce, hctree⟩ := objTree_container_obj c
          (objTreeFieldsB_value t0f s c h0c ht0) hcc
        subst hce
        have hccanon : canonFieldsB cfs = true :=
          canonFieldsB_value t0f s (JVal.obj cfs) h0c hc0
        obtain ⟨dfc, tfc, hw, hm, hsimc⟩ :=
          sim_node_del rest cfs [] cfs k
            (sim_refl_empty cfs (canonFieldsB_sorted cfs hccanon))
            hccanon hctree t hread htc
        refine ⟨oset df s (JVal.obj dfc), oset tf s (JVal.obj tfc), ?_, ?_, ?_⟩
        · rw [writePath_obj_cons tf s rest _ _ hcs, hw]
        · rw [modifyDiffAt_obj_cons_none df s rest _ hds, hm]
        · exact sim_step_build t0f df tf s cfs dfc tfc hsim2 h0c hsimc
      | some dv =>
        cases dv with
        | null =>
          rw [hnull s hds] at hcs
          exact Option.noConfusion hcs
        | bool b =>
          rw [hprim s (JVal.bool b) hds rfl] at hcs
          rw [← Option.some.inj hcs] at hcc
          exact Bool.noConfusion hcc
        | num n =>
          rw [hprim s (JVal.num n) hds rfl] at hcs
          rw [← Option.some.inj hcs] at hcc
          exact Bool.noConfusion hcc
        | str ss =>
          rw [hprim s (JVal.str ss) hds rfl] at hcs
          rw [← Option.some.inj hcs] at hcc
          exact Bool.noConfusion hcc
        | arr es => exact (harr s es hds).elim
        | obj dks =>
          obtain ⟨t0s, ts, h0s, hts⟩ := hobj s dks hds
          have he : c = JVal.obj ts := Option.some.inj (hcs.symm.trans hts)
          subst he
          have hsimchild : Sim t0s dks ts := hrec s dks t0s ts hds h0s hts
          have hc0s : canonFieldsB t0s = true :=
            canonFieldsB_value t0f s (JVal.obj t0s) h0s hc0
          have ht0s : objTreeFieldsB t0s = true :=
            objTreeFieldsB_value t0f s (JVal.obj t0s) h0s ht0
          obtain ⟨dfc, tfc, hw, hm, hsimc⟩ :=
            sim_node_del rest t0s dks ts k hsimchild hc0s ht0s t hread htc
          refine ⟨oset df s (JVal.obj dfc), oset tf s (JVal.obj tfc), ?_, ?_, ?_⟩
          · rw [writePath_obj_cons tf s rest _ _ hcs, hw]
          · rw [modifyDiffAt_obj_cons_obj df s rest _ dks hds, hm]
          · exact sim_step_build t0f df tf s t0s dfc tfc hsim2 h0s hsimc

theorem sim_applyMut (now : Nat) (st : WState) (m : Mut) (t0f df tf : JFields)
    (hd : st.data = JVal.obj tf) (hf : st.diff = JVal.obj df)
    (hsim : Sim t0f df tf) (hc0 : canonFieldsB t0f = true)
    (ht0 : objTreeFieldsB t0f = true) (hok : MutOk m) :
    ∃ df' tf', (applyMut now st m).data = JVal.obj tf' ∧
      (applyMut now st m).diff = JVal.obj df' ∧ Sim t0f df' tf' := by
  cases m with
  | set p k v =>
    obtain ⟨hv, hkl⟩ := hok
    have hva := isPrimNN_not_arr v hv
    have hvc := isPrimNN_not_container v hv
    cases hr : readPath (JVal.obj tf) p with
    | none =>
      refine ⟨df, tf, ?_, ?_, hsim⟩
      · simp [applyMut, hd, hr]
      · simp [applyMut, hd, hr, hf]
    | some t =>
      cases htc : t.isObjectOrArray with
      | false =>
        refine ⟨df, tf, ?_, ?_, hsim⟩
        · simp [applyMut, hd, hr, htc]
        · simp [applyMut, hd, hr, htc, hf]
      | true =>
        cases hneq : jsNeqOpt (jsGet t k) v with
        | false =>
          refine ⟨df, tf, ?_, ?_, hsim⟩
          · simp [applyMut, hd, hr, htc, hva, hvc, hneq]
          · simp [applyMut, hd, hr, htc, hva, hvc, hneq, hf]
        | true =>
          obtain ⟨df', tf', hw, hm, hsim'⟩ :=
            sim_node_set p t0f df tf k v hsim hc0 ht0 hv hkl t hr htc
          refine ⟨df', tf', ?_, ?_, hsim'⟩
          · simp only [applyMut, hd, hr, htc, hva, hvc, hneq]
            simp only [Bool.and_false, Bool.false_and, if_true, if_false,
              Bool.false_eq_true, if_pos, Bool.and_true]
            simp [hw]
          · simp only [applyMut, hd, hr, htc, hva, hvc, hneq]
            simp only [Bool.and_false, Bool.false_and, if_true, if_false,
              Bool.false_eq_true, if_pos, Bool.and_true]
            simp [hf, hm]
  | del p k =>
    cases hr : readPath (JVal.obj tf) p with
    | none =>
      refine ⟨df, tf, ?_, ?_, hsim⟩
      · simp [applyMut, hd, hr]
      · simp [applyMut, hd, hr, hf]
    | some t =>
      cases htc : t.isObjectOrArray with
      | false =>
        refine ⟨df, tf, ?_, ?_, hsim⟩
        · simp [applyMut, hd, hr, htc]
        · simp [applyMut, hd, hr, htc, hf]
      | true =>
        cases hki : keyIn t k with
        | false =>
          refine ⟨df, tf, ?_, ?_, hsim⟩
          · simp [applyMut, hd, hr, htc, hki]
          · simp [applyMut, hd, hr, htc, hki, hf]
        | true =>
          obtain ⟨df', tf', hw, hm, hsim'⟩ :=
            sim_node_del p t0f df tf k hsim hc0 ht0 t hr htc
          refine ⟨df', tf', ?_, ?_, hsim'⟩
          · simp [applyMut, hd, hr, htc, hki, hw]
          · simp [applyMut, hd, hr, htc, hki, hf, hm]

theorem sim_applyMuts (now : Nat) : ∀ (ms : List Mut) (st : WState)
    (t0f df tf : JFields), st.data = JVal.obj tf → st.diff = JVal.obj df →
    Sim t0f df tf → canonFieldsB t0f = true → objTreeFieldsB t0f = true →
    (∀ m ∈ ms, MutOk m) →
    ∃ df' tf', (applyMuts now st ms).data = JVal.obj tf' ∧
      (applyMuts now st ms).diff = JVal.obj df' ∧ Sim t0f df' tf'
  | [], st, t0f, df, tf, hd, hf, hsim, _, _, _ => ⟨df, tf, hd, hf, hsim⟩
  | m :: ms, st, t0f, df, tf, hd, hf, hsim, hc0, ht0, hok => by
    obtain ⟨df1, tf1, hd1, hf1, hsim1⟩ :=
      sim_applyMut now st m t0f df tf hd hf hsim hc0 ht0
        (hok m (List.mem_cons_self _ _))
    rw [applyMuts_cons]
    exact sim_applyMuts now ms (applyMut now st m) t0f df1 tf1 hd1 hf1 hsim1
      hc0 ht0 (fun m' hm' => hok m' (List.mem_cons_of_mem _ hm'))

/-- The watched root `{items: [1,2,3]}` after the wrapper write
`root.items = [4,5]` (an array replacement). -/
def c3wArr : WState :=
  applyMut 0
    ⟨JVal.obj [("items", JVal.arr [JVal.num 1, JVal.num 2, JVal.num 3])],
     JVal.obj [], emDefault, []⟩
    (Mut.set [] "items" (JVal.arr [JVal.num 4, JVal.num 5]))

/-- The watched root `{a: 1}` after the wrapper write `root.a = null`. -/
def c3wNull : WState :=
  applyMut 0 ⟨JVal.obj [("a", JVal.num 1)], JVal.obj [], emDefault, []⟩
    (Mut.set [] "a" JVal.null)

/-- The watched plain-object root `{}` after the wrapper writes
`root.length = 5` and then `root["7"] = 9`. -/
def c3wLen : WState :=
  applyMuts 0 ⟨JVal.obj [], JVal.obj [], emDefault, []⟩
    [Mut.set [] "length" (JVal.num 5), Mut.set [] "7" (JVal.num 9)]

/-- Counterexample to C3 as stated: the round trip fails (a) when an array
is replaced by a shorter array (the patch leaves the tail element behind),
(b) when `null` is written (the diff tombstone makes patch delete the key
instead), and (c) on a plain-object root holding a numeric `length` key
(#recordChange advances the recorded length past a later index write). -/
theorem c3_round_trip_counterexample :
    (c3wArr.data =
        JVal.obj [("items", JVal.arr [JVal.num 4, JVal.num 5])] ∧
      patchApply
          (JVal.obj [("items", JVal.arr [JVal.num 1, JVal.num 2, JVal.num 3])])
          c3wArr.diff =
        JVal.obj [("items", JVal.arr [JVal.num 4, JVal.num 5, JVal.num 3])] ∧
      patchApply
          (JVal.obj [("items", JVal.arr [JVal.num 1, JVal.num 2, JVal.num 3])])
          c3wArr.diff ≠ c3wArr.data) ∧
    (c3wNull.data = JVal.obj [("a", JVal.null)] ∧
      patchApply (JVal.obj [("a", JVal.num 1)]) c3wNull.diff = JVal.obj [] ∧
      patchApply (JVal.obj [("a", JVal.num 1)]) c3wNull.diff ≠ c3wNull.data) ∧
    (c3wLen.data = JVal.obj [("7", JVal.num 9), ("length", JVal.num 5)] ∧
      patchApply (JVal.obj []) c3wLen.diff =
        JVal.obj [("7", JVal.num 9), ("length", JVal.num 8)] ∧
      patchApply (JVal.obj []) c3wLen.diff ≠ c3wLen.data) := by
  refine ⟨⟨rfl, rfl, ?_⟩, ⟨rfl, rfl, ?_⟩, ⟨rfl, rfl, ?_⟩⟩
  · intro h
    have e1 : patchApply
        (JVal.obj [("items", JVal.arr [JVal.num 1, JVal.num 2, JVal.num 3])])
        c3wArr.diff =
        JVal.obj [("items", JVal.arr [JVal.num 4, JVal.num 5, JVal.num 3])] := rfl
    have e2 : c3wArr.data =
        JVal.obj [("items", JVal.arr [JVal.num 4, JVal.num 5])] := rfl
    rw [e1, e2] at h
    simp at h
  · intro h
    have e1 : patchApply (JVal.obj [("a", JVal.num 1)]) c3wNull.diff =
        JVal.obj [] := rfl
    have e2 : c3wNull.data = JVal.obj [("a", JVal.null)] := rfl
    rw [e1, e2] at h
    simp at h
  · intro h
    have e1 : patchApply (JVal.obj []) c3wLen.diff =
        JVal.obj [("7", JVal.num 9), ("length", JVal.num 8)] := rfl
    have e2 : c3wLen.data =
        JVal.obj [("7", JVal.num 9), ("length", JVal.num 5)] := rfl
    rw [e1, e2] at h
    simp at h

/-- C3 (amended): for every watched tree all of whose containers are plain
objects (canonically represented), every synchronous sequence of wrapper
mutations each of which either deletes a key or writes a non-`null`
primitive value at a key other than `length`, and every independent copy
of the original tree, patching the copy with the diff captured from those
mutations rebuilds exactly the mutated tree. -/
theorem c3_round_trip (t0f : JFields) (ms : List Mut) (now : Nat)
    (em : Emitter) (E : List EmissionRec)
    (hc0 : canonFieldsB t0f = true) (ht0 : objTreeFieldsB t0f = true)
    (hok : ∀ m ∈ ms, MutOk m) :
    patchApply (JVal.obj t0f)
        (applyMuts now ⟨JVal.obj t0f, JVal.obj [], em, E⟩ ms).diff =
      (applyMuts now ⟨JVal.obj t0f, JVal.obj [], em, E⟩ ms).data := by
  obtain ⟨df', tf', hd', hf', hsim'⟩ :=
    sim_applyMuts now ms ⟨JVal.obj t0f, JVal.obj [], em, E⟩ t0f [] t0f rfl rfl
      (sim_refl_empty t0f (canonFieldsB_sorted t0f hc0)) hc0 ht0 hok
  rw [hf', hd', patchApply]
  exact patch_of_sim t0f df' tf' hsim' [] (JVal.obj [])

/-- Witness for C3 (amended): on the watched tree
`{n: 1, user: {name: "Alice"}}`, the mutations `user.name = "Bob"`,
`delete n`, `x = 7` produce a diff whose patch onto a copy of the original
tree rebuilds the mutated tree. -/
theorem c3_round_trip_witness :
    patchApply
        (JVal.obj [("n", JVal.num 1),
          ("user", JVal.obj [("name", JVal.str "Alice")])])
        (applyMuts 0
          ⟨JVal.obj [("n", JVal.num 1),
            ("user", JVal.obj [("name", JVal.str "Alice")])],
           JVal.obj [], emDefault, []⟩
          [Mut.set ["user"] "name" (JVal.str "Bob"), Mut.del [] "n",
           Mut.set [] "x" (JVal.num 7)]).diff =
      (applyMuts 0
          ⟨JVal.obj [("n", JVal.num 1),
            ("user", JVal.obj [("name", JVal.str "Alice")])],
           JVal.obj [], emDefault, []⟩
          [Mut.set ["user"] "name" (JVal.str "Bob"), Mut.del [] "n",
           Mut.set [] "x" (JVal.num 7)]).data :=
  c3_round_trip
    [("n", JVal.num 1), ("user", JVal.obj [("name", JVal.str "Alice")])]
    [Mut.set ["user"] "name" (JVal.str "Bob"), Mut.del [] "n",
     Mut.set [] "x" (JVal.num 7)]
    0 emDefault [] (by decide) (by decide)
    (by
      intro m hm
      fin_cases hm
      · exact ⟨rfl, by decide⟩
      · exact trivial
      · exact ⟨rfl, by decide⟩)
